import Mathlib

/-!
# Verification of the LQK site-updater pipeline

A shallow embedding, in Lean 4, of the data model and the operations of the
LQK inventory pipeline (source file: run.py).  Pure computations of the
Python source are translated into executable Lean functions; the Python
exception mechanism is modelled with the Except monad; reading a file is
modelled by passing the file's contents (its list of lines, or its list of
table rows) as an argument.  All functions are translated from the source
program, except the clearly marked spec-side definitions used to state
refinement properties.
-/

namespace LQK

/-! ## Character and string helpers

Python string primitives, modelled over ASCII text (String.data lists of
characters).  Whitespace is modelled by Char.isWhitespace; the Python
originals also accept some exotic unicode whitespace and digits, which this
ASCII model does not capture. -/

/-- Models the character class of the regex \s and of str.strip(). -/
def wsChar (c : Char) : Bool := c.isWhitespace

/-- Models Python str.strip(): remove leading and trailing whitespace. -/
def pyStripS (s : String) : String :=
  String.mk (((s.data.dropWhile wsChar).reverse.dropWhile wsChar).reverse)

/-- Splits a character list at every occurrence of the separator.
Models Python str.split(sep) with a one-character separator: the result is
never empty, and empty fields are kept. -/
def splitChar (sep : Char) : List Char → List (List Char)
  | [] => [[]]
  | c :: rest =>
    let r := splitChar sep rest
    if c = sep then [] :: r
    else
      match r with
      | h :: t => (c :: h) :: t
      | [] => [[c]]

/-- Models Python str.split(sep) for a one-character separator. -/
def pySplit (sep : Char) (s : String) : List String :=
  (splitChar sep s.data).map String.mk

/-- Digit run of a Python integer literal: digits possibly separated by
single underscores.  Accumulates the value; accepts the tail of a literal
whose first digit has already been consumed. -/
def pyDigitsAux : Nat → List Char → Option Nat
  | acc, [] => some acc
  | acc, '_' :: c :: cs =>
    if c.isDigit then pyDigitsAux (acc * 10 + (c.toNat - 48)) cs else none
  | _, ['_'] => none
  | acc, c :: cs =>
    if c.isDigit then pyDigitsAux (acc * 10 + (c.toNat - 48)) cs else none

/-- A non-empty run of decimal digits (with Python's underscore grouping). -/
def pyNat : List Char → Option Nat
  | [] => none
  | c :: cs => if c.isDigit then pyDigitsAux (c.toNat - 48) cs else none

/-- Models Python int(str): optional surrounding whitespace, an optional
sign, then a non-empty digit run.  Returns none where the Python call
raises ValueError.  (Non-ASCII digits accepted by Python are outside this
model.) -/
def pyInt (s : String) : Option Int :=
  let t := ((s.data.dropWhile wsChar).reverse.dropWhile wsChar).reverse
  match t with
  | '+' :: cs => (pyNat cs).map Int.ofNat
  | '-' :: cs => (pyNat cs).map (fun n => -(n : Int))
  | cs => (pyNat cs).map Int.ofNat

/-- Models Python sep.join(list). -/
def joinSep (sep : String) : List String → String
  | [] => ""
  | [x] => x
  | x :: xs => x ++ sep ++ joinSep sep xs

/-! ## The data model -/

/-- VehicleRecord: the dictionaries built by both extractors, with keys
year, make, model, location, available. -/
structure Car where
  year : String
  make : String
  model : String
  location : String
  available : String
deriving DecidableEq

/-- The deduplication identity key (year, make, model), as built in
remove_duplicates. -/
def carKey (c : Car) : String × String × String := (c.year, c.make, c.model)

/-! ## parse_date -/

/-- Translation of parse_date (run.py:151-157).  date_str.split('/') is
taken; with exactly 3 parts the Python code runs month, day, year =
map(int, parts), which raises ValueError on a non-integer part: that
failure path is the Except.error case.  With any other part count it
returns the sentinel (0, 0, 0). -/
def parse_date (date_str : String) : Except Unit (Int × Int × Int) :=
  let parts := pySplit '/' date_str
  if parts.length = 3 then
    match parts.map pyInt with
    | [some month, some day, some year] => Except.ok (year, month, day)
    | _ => Except.error ()
  else Except.ok (0, 0, 0)

/-! ## The tabular (CSV) extractor

parse_csv_file (run.py:76-107).  The csv.DictReader machinery is external
library code; its output is modelled as the list of row dictionaries.  A
row maps column names to values; a value of Option.none models Python's
None (the DictReader restval filler for short rows), on which .strip()
raises AttributeError. -/

/-- One table row: an association list from column name to cell value,
where an Option.none cell models Python None. -/
abbrev Row : Type := List (String × Option String)

/-- Models dict.get(key, default): the default is only used when the key
is absent; a stored None is returned as-is. -/
def rowGet (row : Row) (k : String) (dflt : String) : Option String :=
  match row.find? (fun p => decide (p.1 = k)) with
  | none => some dflt
  | some p => p.2

/-- Models value.strip() on the result of dict.get: raises (Except.error)
on Python None. -/
def pyStrip : Option String → Except Unit String
  | some s => Except.ok (pyStripS s)
  | none => Except.error ()

/-- Models car_name.split(' ', 1): split at the first space only.  The
first component is parts[0]; the second is present only when a space
occurs. -/
def pySplit1 (s : String) : String × Option String :=
  let pre := s.data.takeWhile (fun c => decide (c ≠ ' '))
  if pre.length = s.data.length then (s, none)
  else (String.mk pre, some (String.mk (s.data.drop (pre.length + 1))))

/-- The per-row body of the parse_csv_file loop (run.py:89-103): failure
of any .strip() on a None value is the row-level exception. -/
def processCsvRow (row : Row) : Except Unit Car := do
  let car_name ← pyStrip (rowGet row "car" "")
  let parts := pySplit1 car_name
  let make := parts.1
  let model := (parts.2).getD ""
  let year ← pyStrip (rowGet row "year" "")
  let location ← pyStrip (rowGet row "location" "")
  let available ← pyStrip (rowGet row "date" "")
  return { year := year, make := make, model := model,
           location := location, available := available }

/-- Translation of the parse_csv_file loop with its surrounding
try/except (run.py:85-107): rows are processed in order; the first
exception stops the loop, the cars accumulated so far are returned, and
the error is reported (the Bool flag models whether the error message was
printed). -/
def parse_csv_file : List Row → List Car × Bool
  | [] => ([], false)
  | r :: rs =>
    match processCsvRow r with
    | Except.error _ => ([], true)
    | Except.ok c =>
      let rest := parse_csv_file rs
      (c :: rest.1, rest.2)

/-- Exception-propagating map, used to state that a run of rows all
process successfully. -/
def mapMEx (f : α → Except Unit β) : List α → Except Unit (List β)
  | [] => Except.ok []
  | a :: as =>
    match f a with
    | Except.error e => Except.error e
    | Except.ok b =>
      match mapMEx f as with
      | Except.error e => Except.error e
      | Except.ok bs => Except.ok (b :: bs)

/-! ## The report-format (LQK.txt) extractor

parse_lqk_file (run.py:24-74).  Reading the file is modelled by passing
its list of lines.  The three regular expressions are modelled as
deterministic matchers that follow the engine's leftmost / greedy / lazy
policy: greedy quantifiers take maximal runs, lazy groups take the
shortest continuation that lets the rest of the pattern match, and a
search tries every start position from the left.  Backtracking INTO a
greedy whitespace run (observable only when a captured group would consist
of whitespace, or when a tab sits inside the make token) is not modelled.
-/

/-- The literal tail of the car-info pattern. -/
def availForPartsLit : List Char := "available for parts".data

/-- The lazy group (.+?) of the car-info regex: the shortest non-empty
model text followed by whitespace and the literal "available for parts". -/
def lazyModelSearch (acc : List Char) : List Char → Option String
  | [] => none
  | c :: cs =>
    let acc' := acc ++ [c]
    if !(cs.takeWhile wsChar).isEmpty &&
        availForPartsLit.isPrefixOf (cs.dropWhile wsChar) then
      some (String.mk acc')
    else lazyModelSearch acc' cs

/-- Model of re.match on the car-info pattern (run.py:39):
four digits, whitespace, a space-free make token, whitespace, then the
lazy model group terminated by whitespace and "available for parts".
Returns the three captured groups (year, make, model), the model group
unstripped. -/
def matchCarLine (line : String) : Option (String × String × String) :=
  match line.data with
  | d1 :: d2 :: d3 :: d4 :: rest =>
    if d1.isDigit && d2.isDigit && d3.isDigit && d4.isDigit then
      let ws1 := rest.takeWhile wsChar
      let r1 := rest.dropWhile wsChar
      if ws1.isEmpty then none
      else
        let mk := r1.takeWhile (fun c => decide (c ≠ ' '))
        let r2 := r1.dropWhile (fun c => decide (c ≠ ' '))
        if mk.isEmpty then none
        else
          let ws2 := r2.takeWhile wsChar
          let r3 := r2.dropWhile wsChar
          if ws2.isEmpty then none
          else
            match lazyModelSearch [] r3 with
            | some md => some (String.mk [d1, d2, d3, d4], String.mk mk, md)
            | none => none
    else none
  | _ => none

/-- Literals of the section pattern. -/
def sectionLit : List Char := "Section:".data

/-- Literal of the row marker. -/
def rowMarkLit : List Char := "Row:".data

/-- Literal of the space marker. -/
def spaceMarkLit : List Char := "Space:".data

/-- Final group Space:\s*(.+) — maximal whitespace run, then everything to
the end of the line; when nothing follows the maximal run the engine
backtracks one whitespace character so that (.+) can still match. -/
def sectionG3 (t : List Char) : Option String :=
  if t.isEmpty then none
  else
    let g3 := t.dropWhile wsChar
    if g3.isEmpty then
      match t.reverse with
      | c :: _ :: _ => some (String.mk [c])
      | _ => none
    else some (String.mk g3)

/-- Lazy group (.+?) before "Space:": grown one character at a time; at
each size, a maximal whitespace run followed by the literal lets the tail
of the pattern try to match, and on its failure the group keeps
growing. -/
def sectionG2 (acc : List Char) : List Char → Option (String × String)
  | [] => none
  | c :: cs =>
    let acc' := acc ++ [c]
    if !(cs.takeWhile wsChar).isEmpty &&
        spaceMarkLit.isPrefixOf (cs.dropWhile wsChar) then
      match sectionG3 ((cs.dropWhile wsChar).drop spaceMarkLit.length) with
      | some g3 => some (String.mk acc', g3)
      | none => sectionG2 acc' cs
    else sectionG2 acc' cs

/-- Lazy group (.+?) before "Row:", with the continuation after it. -/
def sectionG1 (acc : List Char) : List Char → Option (String × String × String)
  | [] => none
  | c :: cs =>
    let acc' := acc ++ [c]
    if !(cs.takeWhile wsChar).isEmpty &&
        rowMarkLit.isPrefixOf (cs.dropWhile wsChar) then
      match sectionG2 []
          (((cs.dropWhile wsChar).drop rowMarkLit.length).dropWhile wsChar) with
      | some (g2, g3) => some (String.mk acc', g2, g3)
      | none => sectionG1 acc' cs
    else sectionG1 acc' cs

/-- Model of re.search on the section pattern (run.py:58): the leftmost
start position at which the whole pattern matches wins; groups are
returned unstripped. -/
def searchSection : List Char → Option (String × String × String)
  | [] => none
  | c :: cs =>
    match
      (if sectionLit.isPrefixOf (c :: cs) then
        sectionG1 [] (((c :: cs).drop sectionLit.length).dropWhile wsChar)
      else none) with
    | some g => some g
    | none => searchSection cs

/-- re.search for the section/row/space line applied to a line. -/
def matchSectionLine (line : String) : Option (String × String × String) :=
  searchSection line.data

/-- Literal of the available pattern. -/
def availColonLit : List Char := "Available:".data

/-- One start position of the available pattern Available:\s+(.+):
maximal whitespace run then the rest of the line; if the run reaches the
end of the line the engine backtracks one whitespace character. -/
def matchAvailAt (cs : List Char) : Option String :=
  if availColonLit.isPrefixOf cs then
    let t := cs.drop availColonLit.length
    let ws := t.takeWhile wsChar
    let rest := t.dropWhile wsChar
    if ws.isEmpty then none
    else if rest.isEmpty then
      match ws.reverse with
      | c :: _ :: _ => some (String.mk [c])
      | _ => none
    else some (String.mk rest)
  else none

/-- Model of re.search on the available pattern (run.py:66). -/
def searchAvailable : List Char → Option String
  | [] => none
  | c :: cs =>
    match matchAvailAt (c :: cs) with
    | some g => some g
    | none => searchAvailable cs

/-- re.search for the available-date line applied to a line. -/
def matchAvailableLine (line : String) : Option String :=
  searchAvailable line.data

/-- The fresh record built at a car-info line (run.py:46-55): year and
make are the raw groups, model is group(3).strip(), and location and
available start empty. -/
def initCar (info : String × String × String) : Car :=
  { year := info.1, make := info.2.1, model := pyStripS info.2.2,
    location := "", available := "" }

/-- The section-pattern update of the current record (run.py:58-63). -/
def applySection (c : Car) (line : String) : Car :=
  match matchSectionLine line with
  | some (s, r, p) =>
    { c with location :=
        pyStripS (pyStripS s ++ " " ++ pyStripS r ++ " " ++ pyStripS p) }
  | none => c

/-- The available-pattern update of the current record (run.py:66-68). -/
def applyAvailable (c : Car) (line : String) : Car :=
  match matchAvailableLine line with
  | some d => { c with available := pyStripS d }
  | none => c

/-- Both field updates, in source order, on an already stripped line. -/
def applyLine (c : Car) (line : String) : Car :=
  applyAvailable (applySection c line) line

/-- Both field updates on a raw line (the loop strips each line first). -/
def applyRawLine (c : Car) (rawLine : String) : Car :=
  applyLine c (pyStripS rawLine)

/-- The loop body of parse_lqk_file (run.py:35-68).  The state is the
emitted list plus the currently open record; a car-info match flushes the
open record and opens a fresh one; the section and available patterns are
then tried on the same line against the (possibly new) open record. -/
def processLine (st : List Car × Option Car) (rawLine : String) :
    List Car × Option Car :=
  let line := pyStripS rawLine
  let st' :=
    match matchCarLine line with
    | some info => (st.1 ++ st.2.toList, some (initCar info))
    | none => st
  match st'.2 with
  | some c => (st'.1, some (applyLine c line))
  | none => (st'.1, none)

/-- Translation of parse_lqk_file (run.py:24-74) on the list of lines of
the input file: fold the loop body over the lines, then flush the last
open record. -/
def parse_lqk_file (lines : List String) : List Car :=
  let st := lines.foldl processLine ([], none)
  st.1 ++ st.2.toList

/-! ### Spec-side block decomposition (for C10)

Modelled from the claim's words: the input splits into blocks, each led by
a start line (a line matching the car-info pattern) and extending to the
line before the next start line; a record is the fresh initial record of
its start line updated by the Section/Available lines of its own block
only. -/

/-- True when a raw line is not a start line. -/
def noStart (rawLine : String) : Bool :=
  (matchCarLine (pyStripS rawLine)).isNone

/-- Fuelled block scanner (the fuel makes the recursion structural; it is
always called with enough fuel). -/
def blocksGo : Nat → List String → List ((String × String × String) × List String)
  | 0, _ => []
  | _ + 1, [] => []
  | fuel + 1, l :: ls =>
    match matchCarLine (pyStripS l) with
    | some info =>
      (info, l :: ls.takeWhile noStart) :: blocksGo fuel (ls.dropWhile noStart)
    | none => blocksGo fuel ls

/-- The blocks of a line list: each block carries the groups of its start
line and all its lines (the start line included, since the source tries
the Section/Available patterns on it too). -/
def blocksOf (lines : List String) : List ((String × String × String) × List String) :=
  blocksGo lines.length lines

/-- The record a block denotes: the fresh record of the start line,
updated by the block's own lines only. -/
def applyBlock (b : (String × String × String) × List String) : Car :=
  b.2.foldl applyRawLine (initCar b.1)

/-- Proof-side restatement of the loop from an open record onward. -/
def emitFrom (c : Car) : List String → List Car
  | [] => [c]
  | l :: ls =>
    match matchCarLine (pyStripS l) with
    | some info => c :: emitFrom (applyRawLine (initCar info) l) ls
    | none => emitFrom (applyRawLine c l) ls

/-- Proof-side restatement of the loop with no open record. -/
def emitAll : List String → List Car
  | [] => []
  | l :: ls =>
    match matchCarLine (pyStripS l) with
    | some info => emitFrom (applyRawLine (initCar info) l) ls
    | none => emitAll ls

/-! ## Deduplication (remove_duplicates, run.py:113-145) -/

/-- The sort key of parse_date: a (year, month, day) integer triple. -/
abbrev DateKey := Int × Int × Int

/-- Python tuple comparison (lexicographic) on the sort keys. -/
def keyLtB (a b : DateKey) : Bool :=
  decide (a.1 < b.1) ||
    (decide (a.1 = b.1) &&
      (decide (a.2.1 < b.2.1) ||
        (decide (a.2.1 = b.2.1) && decide (a.2.2 < b.2.2))))

/-- Stable insertion into a descending keyed list: the inserted element
originates earlier in the input than every element of the list, so it
goes before the first element whose key is not strictly greater — the
behavior of Python's stable sorted(..., reverse=True). -/
def insertDesc (x : DateKey × Car) : List (DateKey × Car) → List (DateKey × Car)
  | [] => [x]
  | y :: ys => if keyLtB x.1 y.1 then y :: insertDesc x ys else x :: y :: ys

/-- Stable descending sort by key: models
sorted(group, key=lambda x: parse_date(x['available']), reverse=True)
once the keys are computed. -/
def sortDescKeyed : List (DateKey × Car) → List (DateKey × Car)
  | [] => []
  | x :: xs => insertDesc x (sortDescKeyed xs)

/-- Spec-side: the first element of maximal key — the claim's
characterization of the head of a stable descending sort. -/
def firstMaxKeyed : List (DateKey × Car) → Option (DateKey × Car)
  | [] => none
  | x :: xs =>
    match firstMaxKeyed xs with
    | none => some x
    | some m => if keyLtB x.1 m.1 then some m else some x

/-- One step of the remove_duplicates dict accumulation (run.py:119-126):
append the car to the first group carrying its key, or open a new group
at the end.  A group is its key, its first member and its later
members. -/
def insertGroup :
    List ((String × String × String) × Car × List Car) → Car →
      List ((String × String × String) × Car × List Car)
  | [], c => [(carKey c, c, [])]
  | g :: gs, c =>
    if g.1 = carKey c then (g.1, g.2.1, g.2.2 ++ [c]) :: gs
    else g :: insertGroup gs c

/-- The grouping loop of remove_duplicates: a Python dict keyed by
(year, make, model), in key insertion order. -/
def groupByKey (cars : List Car) :
    List ((String × String × String) × Car × List Car) :=
  cars.foldl insertGroup []

/-- The keys of a group list. -/
def keysOf (gs : List ((String × String × String) × Car × List Car)) :
    List (String × String × String) :=
  gs.map (fun g => g.1)

/-- The members of the group carrying the given key (empty if absent). -/
def groupLookup (gs : List ((String × String × String) × Car × List Car))
    (k : String × String × String) : List Car :=
  match gs.find? (fun g => decide (g.1 = k)) with
  | some g => g.2.1 :: g.2.2
  | none => []

/-- The total number of cars held in a group list. -/
def totalCount (gs : List ((String × String × String) × Car × List Car)) : Nat :=
  (gs.map (fun g => g.2.2.length + 1)).sum

/-- The multi-member branch of the dedup loop (run.py:139-141): key every
member by parse_date (the first unparseable date raises), sort descending
stably, keep the head. -/
def selectNewest (group : List Car) : Except Unit Car :=
  match mapMEx (fun c => (parse_date c.available).map (fun k => (k, c))) group with
  | Except.error e => Except.error e
  | Except.ok keyed =>
    match sortDescKeyed keyed with
    | [] => Except.error ()
    | kc :: _ => Except.ok kc.2

/-- The per-group body of the dedup loop (run.py:132-141): a singleton
group is emitted as is — its date is never parsed; a larger group goes
through the descending sort. -/
def dedupGroup (g : (String × String × String) × Car × List Car) :
    Except Unit Car :=
  match g.2.2 with
  | [] => Except.ok g.2.1
  | _ => selectNewest (g.2.1 :: g.2.2)

/-- Translation of remove_duplicates (run.py:113-145): group by
(year, make, model) in first-seen order, then keep one record per group.
(The printed duplicates-removed count is console output only and is not
modelled.) -/
def remove_duplicates (cars : List Car) : Except Unit (List Car) :=
  mapMEx dedupGroup (groupByKey cars)

/-- Translation of convert_to_site_format (run.py:159-168): deduplicate,
then sort every record by parsed date, newest first. -/
def convert_to_site_format (cars : List Car) : Except Unit (List Car) :=
  match remove_duplicates cars with
  | Except.error e => Except.error e
  | Except.ok cars2 =>
    match mapMEx (fun c => (parse_date c.available).map (fun k => (k, c))) cars2 with
    | Except.error e => Except.error e
    | Except.ok keyed => Except.ok ((sortDescKeyed keyed).map (fun kc => kc.2))

/-- Spec-side: the input records carrying a given identity key, in input
order. -/
def groupOf (cars : List Car) (k : String × String × String) : List Car :=
  cars.filter (fun c => decide (carKey c = k))

/-- Spec-side rank comparison of two records: true when both dates parse
and the first ranks strictly below the second. -/
def rankLtOk (a b : Car) : Bool :=
  match parse_date a.available, parse_date b.available with
  | Except.ok ka, Except.ok kb => keyLtB ka kb
  | _, _ => false

/-- Spec-side adjacent order of the flat listing: both dates parse and
the first does not rank strictly below the second. -/
def rankGeB (a b : Car) : Bool :=
  match parse_date a.available, parse_date b.available with
  | Except.ok ka, Except.ok kb => !(keyLtB ka kb)
  | _, _ => false

/-! ## Consolidation (save_to_lqk_consolidated, run.py:176-238) -/

/-- One entry of the consolidated listing, with count kept as text. -/
structure ConsolidatedEntry where
  car : String
  year : String
  count : String
  dates : String
  locations : String
deriving DecidableEq

/-- The consolidation grouping key (run.py:183-185):
(make + " " + model, year). -/
def consKey (c : Car) : String × String := (c.make ++ " " ++ c.model, c.year)

/-- One step of the consolidation dict accumulation (run.py:182-191):
append the record's date and location to the first group carrying its
key, or open a new group at the end. -/
def insertCons : List ((String × String) × List String × List String) → Car →
    List ((String × String) × List String × List String)
  | [], c => [(consKey c, [c.available], [c.location])]
  | g :: gs, c =>
    if g.1 = consKey c then
      (g.1, g.2.1 ++ [c.available], g.2.2 ++ [c.location]) :: gs
    else g :: insertCons gs c

/-- The consolidation dict: parallel date and location lists per key, in
key insertion order. -/
def consGroups (cars : List Car) :
    List ((String × String) × List String × List String) :=
  cars.foldl insertCons []

/-- The date and location lists of the group carrying the given key. -/
def consLookup (gs : List ((String × String) × List String × List String))
    (k : String × String) : List String × List String :=
  match gs.find? (fun g => decide (g.1 = k)) with
  | some g => g.2
  | none => ([], [])

/-- Python tuple comparison on the (name, year) string pairs. -/
def pairLtB (a b : String × String) : Bool :=
  decide (a.1 < b.1) || (decide (a.1 = b.1) && decide (a.2 < b.2))

/-- Stable ascending insertion by group key: models
sorted(car_groups.items()). -/
def insertAscCons (x : (String × String) × List String × List String) :
    List ((String × String) × List String × List String) →
      List ((String × String) × List String × List String)
  | [] => [x]
  | y :: ys => if pairLtB x.1 y.1 then x :: y :: ys else y :: insertAscCons x ys

/-- Stable ascending sort of the dict items by key. -/
def sortConsItems : List ((String × String) × List String × List String) →
    List ((String × String) × List String × List String)
  | [] => []
  | x :: xs => insertAscCons x (sortConsItems xs)

/-- First-occurrence deduplication with a seen set (run.py:197-209);
membership in the accumulated list models membership in the set. -/
def uniqueFirst (l : List String) : List String :=
  l.foldl (fun acc v => if v ∈ acc then acc else acc ++ [v]) []

/-- The numbered pieces "(i+1) value" of a rendered list
(run.py:216,223). -/
def enumPieces (i : Nat) : List String → List String
  | [] => []
  | v :: vs => ("(" ++ toString (i + 1) ++ ") " ++ v) :: enumPieces (i + 1) vs

/-- Rendering of a deduplicated value list (run.py:211-223): one value
renders as "(1) value", several render comma-separated. -/
def renderEnum (l : List String) : String :=
  if l.length = 1 then "(1) " ++ l.headD ""
  else joinSep ", " (enumPieces 0 l)

/-- The consolidated entry built from one group (run.py:196-231). -/
def mkEntry (g : (String × String) × List String × List String) :
    ConsolidatedEntry :=
  { car := g.1.1, year := g.1.2,
    count := toString (uniqueFirst g.2.1).length,
    dates := renderEnum (uniqueFirst g.2.1),
    locations := renderEnum (uniqueFirst g.2.2) }

/-- Stable ascending insertion of entries by (car, year) (run.py:234). -/
def insertAscEntry (x : ConsolidatedEntry) :
    List ConsolidatedEntry → List ConsolidatedEntry
  | [] => [x]
  | y :: ys =>
    if pairLtB (x.car, x.year) (y.car, y.year) then x :: y :: ys
    else y :: insertAscEntry x ys

/-- The final stable sort of the entries by (car, year). -/
def sortEntries : List ConsolidatedEntry → List ConsolidatedEntry
  | [] => []
  | x :: xs => insertAscEntry x (sortEntries xs)

/-- Translation of save_to_lqk_consolidated (run.py:176-238), up to the
JSON file write: group by (make + " " + model, year), sort the dict items
by key, render each group, then sort the entries by (car, year). -/
def save_to_lqk_consolidated (data : List Car) : List ConsolidatedEntry :=
  sortEntries ((sortConsItems (consGroups data)).map mkEntry)

/-- Spec-side: keep each value's first occurrence, dropping every later
equal value. -/
def dedupFirstSpec : List String → List String
  | [] => []
  | x :: xs => x :: (dedupFirstSpec xs).filter (fun y => decide (y ≠ x))

/-- Spec-side: the records of one consolidation group, in input order. -/
def consGroupOf (cars : List Car) (k : String × String) : List Car :=
  cars.filter (fun c => decide (consKey c = k))

/-! ## The main data flow (main, run.py:273-335) -/

/-- Translation of the data flow of main: the two sources' parsed record
lists come in (the report source, then each tabular file); with no
records at all the run reports no-data and returns exit status 1,
producing no outputs; otherwise the flat listing and the consolidated
listing are produced and the exit status is 0.  Console reporting and
the file writes are I/O and are modelled only through the produced
values. -/
def mainModel (carsFromTxt : List Car) (carsFromCsvs : List (List Car)) :
    Except Unit (Nat × Option (List Car × List ConsolidatedEntry)) :=
  let all_cars := carsFromTxt ++ carsFromCsvs.join
  if all_cars.isEmpty then Except.ok (1, none)
  else
    match convert_to_site_format all_cars with
    | Except.error e => Except.error e
    | Except.ok cars_final =>
      Except.ok (0, some (cars_final, save_to_lqk_consolidated cars_final))

end LQK

namespace LQK

/-! ## C1 theorems -/

/-- C1 (counterexample): the claim says any string other than a valid
M/D/YYYY date makes the ranking function return the sentinel (0,0,0)
without ever raising; but on "1/2/x" — three '/'-separated parts with a
non-numeric part — parse_date raises ValueError (modelled as
Except.error), not the sentinel. -/
theorem parse_date_not_total_cx : parse_date "1/2/x" = Except.error () := rfl

/-- C1 (amended): for every valid M/D/YYYY string (three '/'-separated
parts, all accepted by int()) parse_date returns (year, month, day); for a
string that does not split into exactly three parts it returns the
sentinel (0,0,0); but for a three-part string with a non-integer part it
raises ValueError instead of returning the sentinel. -/
theorem parse_date_amended (s : String) :
    (∀ m d y : Int, (pySplit '/' s).map pyInt = [some m, some d, some y] →
      parse_date s = Except.ok (y, m, d)) ∧
    ((pySplit '/' s).length ≠ 3 → parse_date s = Except.ok (0, 0, 0)) ∧
    ((pySplit '/' s).length = 3 → none ∈ (pySplit '/' s).map pyInt →
      parse_date s = Except.error ()) := by
  refine ⟨?_, ?_, ?_⟩
  · intro m d y h
    have hlen : (pySplit '/' s).length = 3 := by
      have := congrArg List.length h
      simpa using this
    simp [parse_date, hlen, h]
  · intro h
    simp [parse_date, h]
  · intro hlen hnone
    have hlen' : ((pySplit '/' s).map pyInt).length = 3 := by simp [hlen]
    rcases hp : (pySplit '/' s).map pyInt with _ | ⟨a, _ | ⟨b, _ | ⟨c, _ | ⟨e, rest⟩⟩⟩⟩ <;>
        rw [hp] at hlen' <;> simp at hlen'
    rw [hp] at hnone
    rcases a with _ | a
    · simp [parse_date, hlen, hp]
    · rcases b with _ | b
      · simp [parse_date, hlen, hp]
      · rcases c with _ | c
        · simp [parse_date, hlen, hp]
        · simp at hnone

/-- C1 witness: the amended theorem evaluated at the valid date
"3/14/2023" and at the one-part string "nodate". -/
theorem parse_date_amended_witness :
    parse_date "3/14/2023" = Except.ok (2023, 3, 14) ∧
    parse_date "nodate" = Except.ok (0, 0, 0) :=
  ⟨(parse_date_amended "3/14/2023").1 3 14 2023 (by decide),
   (parse_date_amended "nodate").2.1 (by decide)⟩

/-! ## C9 theorems -/

/-- C9 (counterexample): when the very first row fails (here a short row
whose car cell is the None filler), the tabular extractor does return an
empty sequence, contradicting the claim's "does not return an empty
sequence"; the error is still reported and nothing is raised. -/
theorem parse_csv_first_row_fails_cx :
    parse_csv_file [[("car", none)]] = ([], true) := rfl

/-- C9 (amended): if a row-level failure occurs while parsing a tabular
file, the extractor does not raise: it returns exactly the records
accumulated from the rows successfully processed before the failing row
(an empty sequence when the very first row fails) and reports the error
as a non-fatal message (the Bool flag). -/
theorem parse_csv_keeps_processed_rows (good : List Row) (bad : Row)
    (rest : List Row) (gcars : List Car)
    (h : mapMEx processCsvRow good = Except.ok gcars)
    (hbad : processCsvRow bad = Except.error ()) :
    parse_csv_file (good ++ bad :: rest) = (gcars, true) := by
  induction good generalizing gcars with
  | nil =>
    simp only [mapMEx] at h
    cases h
    simp [parse_csv_file, hbad]
  | cons r good ih =>
    simp only [mapMEx] at h
    rcases hr : processCsvRow r with e | c <;> rw [hr] at h
    · simp at h
    · rcases hm : mapMEx processCsvRow good with e | cs <;> rw [hm] at h
      · simp at h
      · cases h
        simp [parse_csv_file, hr, ih cs hm]

/-- C9 witness: one good row followed by a failing row: the good record is
kept, the flag is set. -/
theorem parse_csv_keeps_processed_rows_witness :
    parse_csv_file
        [[("car", some "Honda Civic"), ("year", some "2020"),
          ("location", some "L1"), ("date", some "1/1/2020")],
         [("car", none)]] =
      ([{ year := "2020", make := "Honda", model := "Civic",
          location := "L1", available := "1/1/2020" }], true) :=
  parse_csv_keeps_processed_rows
    [[("car", some "Honda Civic"), ("year", some "2020"),
      ("location", some "L1"), ("date", some "1/1/2020")]]
    [("car", none)] [] _ rfl rfl

/-! ## C2 theorems (the counterexample; the amended theorem follows the
report-format extractor below) -/

/-- C2 (counterexample): the tabular extractor does not drop records whose
year is empty: a row with an empty year cell is emitted as a record with
year = "". -/
theorem csv_emits_empty_year_cx :
    ((parse_csv_file
        [[("car", some "Honda Civic"), ("year", some ""),
          ("location", some "L1"), ("date", some "1/1/2020")]]).1.map
      Car.year) = [""] := rfl

/-! ## Lemmas about the report-format extractor -/

/-- A successful car-info match captures a year of four digit characters,
hence a non-empty year. -/
theorem matchCarLine_year_ne (line : String) (info : String × String × String)
    (h : matchCarLine line = some info) : info.1 ≠ "" := by
  unfold matchCarLine at h
  rcases hd : line.data with _ | ⟨d1, _ | ⟨d2, _ | ⟨d3, _ | ⟨d4, rest⟩⟩⟩⟩ <;>
      rw [hd] at h
  · exact absurd h (by simp)
  · exact absurd h (by simp)
  · exact absurd h (by simp)
  · exact absurd h (by simp)
  · dsimp only at h
    repeat' split at h
    all_goals cases h
    intro heq
    have := congrArg String.data heq
    simp at this

/-- The section update does not touch the year field. -/
theorem applySection_year (c : Car) (line : String) :
    (applySection c line).year = c.year := by
  unfold applySection
  split <;> rfl

/-- The available update does not touch the year field. -/
theorem applyAvailable_year (c : Car) (line : String) :
    (applyAvailable c line).year = c.year := by
  unfold applyAvailable
  split <;> rfl

/-- Neither per-line update touches the year field. -/
theorem applyRawLine_year (c : Car) (line : String) :
    (applyRawLine c line).year = c.year := by
  unfold applyRawLine applyLine
  rw [applyAvailable_year, applySection_year]

/-- Invariant of the parse_lqk_file loop: every already emitted record and
any open record has a non-empty year. -/
theorem parse_lqk_year_aux (lines : List String) (cars : List Car)
    (cur : Option Car) (hc : ∀ c ∈ cars, c.year ≠ "")
    (hcur : ∀ c, cur = some c → c.year ≠ "") :
    ∀ c, c ∈ (lines.foldl processLine (cars, cur)).1 ++
        (lines.foldl processLine (cars, cur)).2.toList → c.year ≠ "" := by
  induction lines generalizing cars cur with
  | nil =>
    intro c hmem
    rcases List.mem_append.mp hmem with h | h
    · exact hc c h
    · rcases cur with _ | c₀
      · simp at h
      · simp at h
        exact h ▸ hcur c₀ rfl
  | cons l ls ih =>
    intro c hmem
    rw [List.foldl_cons] at hmem
    rcases hm : matchCarLine (pyStripS l) with _ | info
    · have hstep : processLine (cars, cur) l =
          (cars, Option.map (fun c₀ => applyLine c₀ (pyStripS l)) cur) := by
        cases cur <;> simp [processLine, hm]
      rw [hstep] at hmem
      refine ih cars _ hc ?_ c hmem
      intro c' hco
      rcases hcv : cur with _ | c₀
      · rw [hcv] at hco; simp at hco
      · rw [hcv] at hco; simp at hco
        have hy : (applyLine c₀ (pyStripS l)).year = c₀.year := by
          unfold applyLine
          rw [applyAvailable_year, applySection_year]
        rw [← hco, hy]
        exact hcur c₀ hcv
    · have hstep : processLine (cars, cur) l =
          (cars ++ cur.toList, some (applyLine (initCar info) (pyStripS l))) := by
        simp [processLine, hm]
      rw [hstep] at hmem
      refine ih _ _ ?_ ?_ c hmem
      · intro c' hmem'
        rcases List.mem_append.mp hmem' with h | h
        · exact hc c' h
        · rcases hcv : cur with _ | c₀
          · rw [hcv] at h; simp at h
          · rw [hcv] at h; simp at h
            exact h ▸ hcur c₀ hcv
      · intro c' hco
        cases hco
        have hy : (applyLine (initCar info) (pyStripS l)).year =
            (initCar info).year := by
          unfold applyLine
          rw [applyAvailable_year, applySection_year]
        rw [hy]
        exact matchCarLine_year_ne _ info hm

/-- C2 (amended): every record emitted by the report-format extractor has
a non-empty year (a record is only opened on a four-digit year match);
the tabular extractor performs no such filtering and can emit records
with an empty year (see the counterexample). -/
theorem parse_lqk_year_nonempty (lines : List String) (c : Car)
    (h : c ∈ parse_lqk_file lines) : c.year ≠ "" :=
  parse_lqk_year_aux lines [] none (by intro c h; cases h)
    (by intro c h; cases h) c h

/-- C2 witness: the single-line report input emits a record with
year 2015, which is non-empty. -/
theorem parse_lqk_year_nonempty_witness :
    ({ year := "2015", make := "TOYOTA", model := "CAMRY",
       location := "", available := "" } : Car).year ≠ "" :=
  parse_lqk_year_nonempty ["2015 TOYOTA CAMRY available for parts"] _
    (by decide)

/-! ## C10: the block decomposition of the report-format extractor -/

/-- dropWhile never lengthens a list. -/
theorem dropWhile_length_le (p : α → Bool) (l : List α) :
    (l.dropWhile p).length ≤ l.length := by
  induction l with
  | nil => simp
  | cons a l ih =>
    by_cases h : p a
    · rw [List.dropWhile_cons_of_pos h]
      exact Nat.le_succ_of_le ih
    · rw [List.dropWhile_cons_of_neg h]

/-- The fuelled block scanner does not depend on the fuel once the fuel
covers the list length. -/
theorem blocksGo_congr (f1 f2 : Nat) (ls : List String)
    (h1 : ls.length ≤ f1) (h2 : ls.length ≤ f2) :
    blocksGo f1 ls = blocksGo f2 ls := by
  induction f1 generalizing f2 ls with
  | zero =>
    have : ls = [] := List.length_eq_zero.mp (Nat.le_zero.mp h1)
    subst this
    cases f2 <;> rfl
  | succ f1 ih =>
    cases ls with
    | nil => cases f2 <;> rfl
    | cons l ls =>
      cases f2 with
      | zero => exact absurd h2 (by simp)
      | succ f2 =>
        simp only [blocksGo]
        rcases hm : matchCarLine (pyStripS l) with _ | info
        · exact ih f2 ls (Nat.le_of_succ_le_succ h1) (Nat.le_of_succ_le_succ h2)
        · rw [ih f2 (ls.dropWhile noStart)
            (Nat.le_trans (dropWhile_length_le _ _) (Nat.le_of_succ_le_succ h1))
            (Nat.le_trans (dropWhile_length_le _ _) (Nat.le_of_succ_le_succ h2))]

/-- Unfolding equation of blocksOf on a cons cell. -/
theorem blocksOf_cons (l : String) (ls : List String) :
    blocksOf (l :: ls) =
      match matchCarLine (pyStripS l) with
      | some info =>
        (info, l :: ls.takeWhile noStart) :: blocksOf (ls.dropWhile noStart)
      | none => blocksOf ls := by
  show blocksGo (ls.length + 1) (l :: ls) = _
  simp only [blocksGo]
  rcases hm : matchCarLine (pyStripS l) with _ | info <;> dsimp only
  · rfl
  · rw [blocksGo_congr ls.length (ls.dropWhile noStart).length
      (ls.dropWhile noStart) (dropWhile_length_le _ _) (Nat.le_refl _)]
    rfl

/-- The loop state fold, expressed with the proof-side emitters. -/
theorem foldl_processLine_eq (lines : List String) (cars : List Car)
    (cur : Option Car) :
    (lines.foldl processLine (cars, cur)).1 ++
        (lines.foldl processLine (cars, cur)).2.toList =
      cars ++ (match cur with
        | some c => emitFrom c lines
        | none => emitAll lines) := by
  induction lines generalizing cars cur with
  | nil =>
    rcases cur with _ | c <;> simp [emitFrom, emitAll]
  | cons l ls ih =>
    rw [List.foldl_cons]
    rcases hm : matchCarLine (pyStripS l) with _ | info
    · rcases cur with _ | c
      · have hstep : processLine (cars, none) l = (cars, none) := by
          simp [processLine, hm]
        rw [hstep, ih]
        simp only [emitAll, hm]
      · have hstep : processLine (cars, some c) l =
            (cars, some (applyLine c (pyStripS l))) := by
          simp [processLine, hm]
        rw [hstep, ih]
        simp only [emitFrom, hm, applyRawLine]
    · have hstep : processLine (cars, cur) l =
          (cars ++ cur.toList, some (applyLine (initCar info) (pyStripS l))) := by
        simp [processLine, hm]
      rw [hstep, ih]
      rcases cur with _ | c <;>
        simp [emitFrom, emitAll, hm, applyRawLine]

/-- emitFrom, expressed with blocks: the open record absorbs the
non-start lines, and the remaining blocks follow. -/
theorem emitFrom_eq_blocks (ls : List String) (c : Car) :
    emitFrom c ls =
      (ls.takeWhile noStart).foldl applyRawLine c ::
        (blocksOf (ls.dropWhile noStart)).map applyBlock := by
  induction ls generalizing c with
  | nil => simp [emitFrom, blocksOf, blocksGo]
  | cons l ls ih =>
    rcases hm : matchCarLine (pyStripS l) with _ | info
    · have hns : noStart l = true := by simp [noStart, hm]
      simp only [emitFrom, hm]
      rw [List.takeWhile_cons_of_pos hns, List.dropWhile_cons_of_pos hns,
        List.foldl_cons, ih]
    · have hns : noStart l = false := by simp [noStart, hm]
      simp only [emitFrom, hm]
      rw [List.takeWhile_cons_of_neg (by simp [hns]),
        List.dropWhile_cons_of_neg (by simp [hns]), blocksOf_cons]
      simp only [hm]
      rw [List.foldl_nil, List.map_cons, ih]
      have : applyBlock (info, l :: ls.takeWhile noStart) =
          (ls.takeWhile noStart).foldl applyRawLine
            (applyRawLine (initCar info) l) := by
        simp [applyBlock]
      rw [this]

/-- emitAll, expressed with blocks. -/
theorem emitAll_eq_blocks (ls : List String) :
    emitAll ls = (blocksOf ls).map applyBlock := by
  induction ls with
  | nil => rfl
  | cons l ls ih =>
    rcases hm : matchCarLine (pyStripS l) with _ | info
    · simp only [emitAll, hm, blocksOf_cons]
      exact ih
    · simp only [emitAll, hm, blocksOf_cons]
      rw [emitFrom_eq_blocks, List.map_cons]
      have : applyBlock (info, l :: ls.takeWhile noStart) =
          (ls.takeWhile noStart).foldl applyRawLine
            (applyRawLine (initCar info) l) := by
        simp [applyBlock]
      rw [this]

/-- A line matching neither the section nor the available pattern leaves
the open record unchanged. -/
theorem applyRawLine_id (c : Car) (l : String)
    (hs : matchSectionLine (pyStripS l) = none)
    (ha : matchAvailableLine (pyStripS l) = none) :
    applyRawLine c l = c := by
  simp [applyRawLine, applyLine, applySection, applyAvailable, hs, ha]

/-- A run of lines with no Section/Available match leaves the record
unchanged. -/
theorem foldl_applyRawLine_id (ls : List String) (c : Car)
    (h : ∀ l ∈ ls, matchSectionLine (pyStripS l) = none ∧
      matchAvailableLine (pyStripS l) = none) :
    ls.foldl applyRawLine c = c := by
  induction ls generalizing c with
  | nil => rfl
  | cons l ls ih =>
    rw [List.foldl_cons, applyRawLine_id c l (h l (List.mem_cons_self l ls)).1
      (h l (List.mem_cons_self l ls)).2]
    exact ih c (fun x hx => h x (List.mem_cons_of_mem _ hx))

/-- C10: the report-format extractor equals the per-block semantics: the
input decomposes into blocks led by start lines; each emitted record is
the fresh record (location and available empty) of its block's start
line, updated only by its own block's lines — so values never carry over
from an earlier record, and a block with no Section/Available match
yields a record with both fields empty. -/
theorem parse_lqk_blocks (lines : List String) :
    parse_lqk_file lines = (blocksOf lines).map applyBlock ∧
    ∀ b ∈ blocksOf lines,
      (∀ l ∈ b.2, matchSectionLine (pyStripS l) = none ∧
        matchAvailableLine (pyStripS l) = none) →
      (applyBlock b).location = "" ∧ (applyBlock b).available = "" := by
  constructor
  · show (lines.foldl processLine ([], none)).1 ++
        (lines.foldl processLine ([], none)).2.toList = _
    rw [foldl_processLine_eq]
    exact emitAll_eq_blocks lines
  · intro b _ hnone
    unfold applyBlock
    rw [foldl_applyRawLine_id b.2 (initCar b.1) hnone]
    exact ⟨rfl, rfl⟩

/-! ## Lemmas on the sort-key order -/

/-- The key order is irreflexive. -/
theorem keyLtB_irrefl (a : DateKey) : keyLtB a a = false := by
  simp [keyLtB]

/-- The key order is asymmetric. -/
theorem keyLtB_asymm {a b : DateKey} (h : keyLtB a b = true) :
    keyLtB b a = false := by
  rcases a with ⟨a1, a2, a3⟩
  rcases b with ⟨b1, b2, b3⟩
  simp only [keyLtB, Bool.or_eq_true, Bool.and_eq_true, decide_eq_true_eq,
    Bool.or_eq_false_iff, Bool.and_eq_false_iff, decide_eq_false_iff_not] at h ⊢
  omega

/-- Not-below is transitive. -/
theorem keyLtB_le_trans {a b c : DateKey} (hab : keyLtB a b = false)
    (hbc : keyLtB b c = false) : keyLtB a c = false := by
  rcases a with ⟨a1, a2, a3⟩
  rcases b with ⟨b1, b2, b3⟩
  rcases c with ⟨c1, c2, c3⟩
  simp only [keyLtB, Bool.or_eq_false_iff, Bool.and_eq_false_iff,
    decide_eq_false_iff_not] at hab hbc ⊢
  omega

/-! ## Lemmas on the stable descending sort -/

/-- Insertion adds exactly one element. -/
theorem insertDesc_length (x : DateKey × Car) (l : List (DateKey × Car)) :
    (insertDesc x l).length = l.length + 1 := by
  induction l with
  | nil => rfl
  | cons y ys ih =>
    unfold insertDesc
    by_cases h : keyLtB x.1 y.1 <;> simp [h, ih]

/-- Sorting preserves length. -/
theorem sortDescKeyed_length (l : List (DateKey × Car)) :
    (sortDescKeyed l).length = l.length := by
  induction l with
  | nil => rfl
  | cons x xs ih => simp [sortDescKeyed, insertDesc_length, ih]

/-- Membership in an insertion. -/
theorem insertDesc_mem {y x : DateKey × Car} {l : List (DateKey × Car)} :
    y ∈ insertDesc x l ↔ y = x ∨ y ∈ l := by
  induction l with
  | nil => simp [insertDesc]
  | cons z zs ih =>
    unfold insertDesc
    by_cases h : keyLtB x.1 z.1 <;> simp [h, ih] <;> tauto

/-- Membership is preserved by the sort. -/
theorem sortDescKeyed_mem {y : DateKey × Car} {l : List (DateKey × Car)} :
    y ∈ sortDescKeyed l ↔ y ∈ l := by
  induction l with
  | nil => simp [sortDescKeyed]
  | cons x xs ih => simp [sortDescKeyed, insertDesc_mem, ih]

/-- The head of an insertion. -/
theorem insertDesc_head? (x : DateKey × Car) (l : List (DateKey × Car)) :
    (insertDesc x l).head? =
      match l.head? with
      | none => some x
      | some y => if keyLtB x.1 y.1 then some y else some x := by
  cases l with
  | nil => rfl
  | cons y ys =>
    unfold insertDesc
    by_cases h : keyLtB x.1 y.1 <;> simp [h]

/-- The head of the stable descending sort is the first element of
maximal key. -/
theorem sortDescKeyed_head? (l : List (DateKey × Car)) :
    (sortDescKeyed l).head? = firstMaxKeyed l := by
  induction l with
  | nil => rfl
  | cons x xs ih =>
    show (insertDesc x (sortDescKeyed xs)).head? = _
    rw [insertDesc_head?]
    unfold firstMaxKeyed
    rcases hs : (sortDescKeyed xs).head? with _ | y
    · have hxs : sortDescKeyed xs = [] := by
        cases hval : sortDescKeyed xs
        · rfl
        · rw [hval] at hs; simp at hs
      have : xs = [] := by
        have := sortDescKeyed_length xs
        rw [hxs] at this
        exact List.length_eq_zero.mp this.symm
      rw [this]
      rfl
    · rw [← ih, hs]

/-- Insertion into a descending chain yields a descending chain. -/
theorem insertDesc_chain' {x : DateKey × Car} {l : List (DateKey × Car)}
    (h : List.Chain' (fun a b => keyLtB a.1 b.1 = false) l) :
    List.Chain' (fun a b => keyLtB a.1 b.1 = false) (insertDesc x l) := by
  induction l with
  | nil => simp [insertDesc]
  | cons y ys ih =>
    rw [List.chain'_cons'] at h
    unfold insertDesc
    by_cases hxy : keyLtB x.1 y.1
    · rw [if_pos hxy, List.chain'_cons']
      refine ⟨?_, ih h.2⟩
      intro z hz
      rw [insertDesc_head?] at hz
      rcases hys : ys.head? with _ | w <;> rw [hys] at hz
      · simp at hz
        rw [← hz]
        exact keyLtB_asymm hxy
      · by_cases hxw : keyLtB x.1 w.1 <;> simp [hxw] at hz <;> rw [← hz]
        · exact h.1 w hys
        · exact keyLtB_asymm hxy
    · rw [if_neg hxy, List.chain'_cons']
      refine ⟨?_, List.chain'_cons'.mpr h⟩
      intro z hz
      simp at hz
      rw [← hz]
      exact Bool.eq_false_iff.mpr (fun hc => hxy hc)

/-- The stable descending sort is sorted: no element ranks strictly below
its successor. -/
theorem sortDescKeyed_chain' (l : List (DateKey × Car)) :
    List.Chain' (fun a b => keyLtB a.1 b.1 = false) (sortDescKeyed l) := by
  induction l with
  | nil => simp [sortDescKeyed]
  | cons x xs ih => exact insertDesc_chain' ih

/-! ## Lemmas on the first maximum -/

/-- firstMaxKeyed is none exactly on the empty list. -/
theorem firstMaxKeyed_none_iff (l : List (DateKey × Car)) :
    firstMaxKeyed l = none ↔ l = [] := by
  cases l with
  | nil => simp [firstMaxKeyed]
  | cons x xs =>
    simp only [firstMaxKeyed]
    rcases h : firstMaxKeyed xs with _ | m
    · simp
    · by_cases hx : keyLtB x.1 m.1 <;> simp [hx]

/-- The first maximum is an element of maximal key whose strict
predecessors all rank strictly below it. -/
theorem firstMaxKeyed_spec (l : List (DateKey × Car)) (m : DateKey × Car)
    (h : firstMaxKeyed l = some m) :
    ∃ j, ∃ hj : j < l.length, l.get ⟨j, hj⟩ = m ∧
      (∀ i (hi : i < l.length), keyLtB m.1 (l.get ⟨i, hi⟩).1 = false) ∧
      (∀ i (hi : i < j), keyLtB (l.get ⟨i, Nat.lt_trans hi hj⟩).1 m.1 = true) := by
  induction l generalizing m with
  | nil => simp [firstMaxKeyed] at h
  | cons x xs ih =>
    rw [firstMaxKeyed] at h
    rcases hf : firstMaxKeyed xs with _ | m' <;> rw [hf] at h <;> dsimp only at h
    · have hxs : xs = [] := (firstMaxKeyed_none_iff xs).mp hf
      subst hxs
      simp at h
      subst h
      refine ⟨0, by simp, rfl, ?_, by intro i hi; cases hi⟩
      intro i hi
      have hi0 : i = 0 := by
        simp at hi
        omega
      subst hi0
      exact keyLtB_irrefl _
    · by_cases hx : keyLtB x.1 m'.1 = true
      · rw [if_pos hx] at h
        cases h
        obtain ⟨j, hj, hget, hmax, hfirst⟩ := ih _ hf
        refine ⟨j + 1, Nat.succ_lt_succ hj, by simpa using hget, ?_, ?_⟩
        · intro i hi
          cases i with
          | zero => simpa using keyLtB_asymm hx
          | succ i =>
            have hi' : i < xs.length := Nat.lt_of_succ_lt_succ hi
            simpa using hmax i hi'
        · intro i hi
          cases i with
          | zero => simpa using hx
          | succ i =>
            have hi' : i < j := Nat.lt_of_succ_lt_succ hi
            simpa using hfirst i hi'
      · rw [if_neg hx] at h
        cases h
        obtain ⟨j, hj, hget, hmax, _⟩ := ih m' hf
        refine ⟨0, by simp, rfl, ?_, by intro i hi; cases hi⟩
        intro i hi
        cases i with
        | zero => exact keyLtB_irrefl _
        | succ i =>
          have hi' : i < xs.length := Nat.lt_of_succ_lt_succ hi
          have hxm : keyLtB x.1 m'.1 = false := by
            exact Bool.eq_false_iff.mpr hx
          have := keyLtB_le_trans hxm (hmax i hi')
          simpa using this

/-! ## Lemmas on exception-propagating map -/

/-- A successful mapMEx preserves length. -/
theorem mapMEx_ok_length {f : α → Except Unit β} {l : List α} {out : List β}
    (h : mapMEx f l = Except.ok out) : out.length = l.length := by
  induction l generalizing out with
  | nil => simp only [mapMEx] at h; cases h; rfl
  | cons a as ih =>
    simp only [mapMEx] at h
    rcases hf : f a with e | b <;> rw [hf] at h
    · simp at h
    · rcases hm : mapMEx f as with e | bs <;> rw [hm] at h
      · simp at h
      · cases h
        simp [ih hm]

/-- A successful mapMEx acts pointwise. -/
theorem mapMEx_ok_get {f : α → Except Unit β} {l : List α} {out : List β}
    (h : mapMEx f l = Except.ok out) :
    ∀ i (hi : i < l.length) (ho : i < out.length),
      f (l.get ⟨i, hi⟩) = Except.ok (out.get ⟨i, ho⟩) := by
  induction l generalizing out with
  | nil => intro i hi; cases hi
  | cons a as ih =>
    simp only [mapMEx] at h
    rcases hf : f a with e | b <;> rw [hf] at h
    · simp at h
    · rcases hm : mapMEx f as with e | bs <;> rw [hm] at h
      · simp at h
      · cases h
        intro i hi ho
        cases i with
        | zero => simpa using hf
        | succ i =>
          have hi' : i < as.length := Nat.lt_of_succ_lt_succ hi
          have ho' : i < bs.length := Nat.lt_of_succ_lt_succ ho
          simpa using ih hm i hi' ho'

/-- Every output of a successful mapMEx comes from an input. -/
theorem mapMEx_ok_mem {f : α → Except Unit β} {l : List α} {out : List β}
    (h : mapMEx f l = Except.ok out) (b : β) (hb : b ∈ out) :
    ∃ a ∈ l, f a = Except.ok b := by
  induction l generalizing out with
  | nil => simp only [mapMEx] at h; cases h; simp at hb
  | cons a as ih =>
    simp only [mapMEx] at h
    rcases hf : f a with e | b' <;> rw [hf] at h
    · simp at h
    · rcases hm : mapMEx f as with e | bs <;> rw [hm] at h
      · simp at h
      · cases h
        rcases List.mem_cons.mp hb with hb | hb
        · exact ⟨a, List.mem_cons_self a as, hb ▸ hf⟩
        · obtain ⟨a', ha', hfa'⟩ := ih hm hb
          exact ⟨a', List.mem_cons_of_mem a ha', hfa'⟩

/-- Inversion of Except.map on a success. -/
theorem exceptMap_ok {x : Except Unit γ} {g : γ → δ} {y : δ}
    (h : Except.map g x = Except.ok y) : ∃ k, x = Except.ok k ∧ y = g k := by
  cases x with
  | error e => simp [Except.map] at h
  | ok k =>
    refine ⟨k, rfl, ?_⟩
    simp [Except.map] at h
    exact h.symm

/-! ## Lemmas on the grouping dict -/

/-- Lookup on a cons cell. -/
theorem groupLookup_cons (g : (String × String × String) × Car × List Car)
    (gs : List ((String × String × String) × Car × List Car))
    (k : String × String × String) :
    groupLookup (g :: gs) k =
      if g.1 = k then g.2.1 :: g.2.2 else groupLookup gs k := by
  by_cases h : g.1 = k <;> simp [groupLookup, List.find?, h]

/-- Effect of one grouping step on a lookup. -/
theorem insertGroup_lookup (gs : List ((String × String × String) × Car × List Car))
    (c : Car) (k : String × String × String) :
    groupLookup (insertGroup gs c) k =
      groupLookup gs k ++ (if carKey c = k then [c] else []) := by
  induction gs with
  | nil =>
    by_cases hk : carKey c = k <;>
      simp [groupLookup, insertGroup, List.find?, hk]
  | cons g gs ih =>
    by_cases hg : g.1 = carKey c
    · rw [insertGroup, if_pos hg]
      by_cases hgk : g.1 = k
      · have hck : carKey c = k := hg ▸ hgk
        rw [groupLookup_cons, groupLookup_cons, if_pos hgk, if_pos hgk,
          if_pos hck]
        simp
      · have hck : ¬ carKey c = k := fun hc => hgk (hg ▸ hc)
        rw [groupLookup_cons, groupLookup_cons, if_neg hgk, if_neg hgk,
          if_neg hck]
        simp
    · rw [insertGroup, if_neg hg]
      by_cases hgk : g.1 = k
      · have hck : ¬ carKey c = k := fun hc => hg (hgk ▸ hc ▸ rfl)
        rw [groupLookup_cons, groupLookup_cons, if_pos hgk, if_pos hgk,
          if_neg hck]
        simp
      · rw [groupLookup_cons, groupLookup_cons, if_neg hgk, if_neg hgk, ih]

/-- The grouping fold accumulates exactly the key's input records. -/
theorem foldl_insertGroup_lookup (cars : List Car)
    (gs : List ((String × String × String) × Car × List Car))
    (k : String × String × String) :
    groupLookup (cars.foldl insertGroup gs) k =
      groupLookup gs k ++ groupOf cars k := by
  induction cars generalizing gs with
  | nil => simp [groupOf]
  | cons c cars ih =>
    rw [List.foldl_cons, ih, insertGroup_lookup]
    by_cases h : carKey c = k <;>
      simp [groupOf, List.filter_cons, h]

/-- The members of a key's group are exactly the input records with that
key, in input order. -/
theorem groupByKey_lookup (cars : List Car) (k : String × String × String) :
    groupLookup (groupByKey cars) k = groupOf cars k := by
  have := foldl_insertGroup_lookup cars [] k
  simpa [groupByKey, groupLookup, List.find?] using this

/-- Keys of a cons cell. -/
theorem keysOf_cons (g : (String × String × String) × Car × List Car)
    (gs : List ((String × String × String) × Car × List Car)) :
    keysOf (g :: gs) = g.1 :: keysOf gs := rfl

/-- Effect of one grouping step on the key list. -/
theorem insertGroup_keys (gs : List ((String × String × String) × Car × List Car))
    (c : Car) :
    keysOf (insertGroup gs c) =
      if carKey c ∈ keysOf gs then keysOf gs else keysOf gs ++ [carKey c] := by
  induction gs with
  | nil => simp [keysOf, insertGroup]
  | cons g gs ih =>
    by_cases hg : g.1 = carKey c
    · rw [insertGroup, if_pos hg]
      have hmem : carKey c ∈ keysOf (g :: gs) := by
        rw [keysOf_cons]
        exact List.mem_cons.mpr (Or.inl hg.symm)
      rw [if_pos hmem, keysOf_cons, keysOf_cons]
    · rw [insertGroup, if_neg hg]
      have hne : ¬ carKey c = g.1 := fun hc => hg hc.symm
      by_cases hmem : carKey c ∈ keysOf gs
      · have hmem' : carKey c ∈ keysOf (g :: gs) := by
          rw [keysOf_cons]
          exact List.mem_cons.mpr (Or.inr hmem)
        rw [if_pos hmem', keysOf_cons, keysOf_cons, ih, if_pos hmem]
      · have hmem' : ¬ carKey c ∈ keysOf (g :: gs) := by
          rw [keysOf_cons]
          intro hc
          rcases List.mem_cons.mp hc with hc | hc
          · exact hne hc
          · exact hmem hc
        rw [if_neg hmem', keysOf_cons, keysOf_cons, ih, if_neg hmem]
        rfl

/-- Keys never duplicate as the fold proceeds. -/
theorem foldl_insertGroup_keys_nodup (cars : List Car)
    (gs : List ((String × String × String) × Car × List Car))
    (h : (keysOf gs).Nodup) : (keysOf (cars.foldl insertGroup gs)).Nodup := by
  induction cars generalizing gs with
  | nil => exact h
  | cons c cars ih =>
    rw [List.foldl_cons]
    refine ih _ ?_
    rw [insertGroup_keys]
    by_cases hmem : carKey c ∈ keysOf gs
    · simpa [hmem] using h
    · simp only [hmem, if_neg, if_false]
      simpa [List.nodup_append] using ⟨h, hmem⟩

/-- The grouping dict has pairwise distinct keys. -/
theorem groupByKey_keys_nodup (cars : List Car) :
    (keysOf (groupByKey cars)).Nodup :=
  foldl_insertGroup_keys_nodup cars [] (by simp [keysOf])

/-- A key occurs in the fold result iff it occurs in the seed or in the
input. -/
theorem mem_keys_foldl (cars : List Car)
    (gs : List ((String × String × String) × Car × List Car))
    (k : String × String × String) :
    k ∈ keysOf (cars.foldl insertGroup gs) ↔
      k ∈ keysOf gs ∨ k ∈ cars.map carKey := by
  induction cars generalizing gs with
  | nil => simp
  | cons c cars ih =>
    rw [List.foldl_cons, ih, insertGroup_keys]
    by_cases hmem : carKey c ∈ keysOf gs
    · simp only [hmem, if_pos, List.map_cons, List.mem_cons]
      constructor
      · intro h
        rcases h with h | h
        · exact Or.inl h
        · exact Or.inr (Or.inr h)
      · intro h
        rcases h with h | h | h
        · exact Or.inl h
        · exact Or.inl (h ▸ hmem)
        · exact Or.inr h
    · simp only [hmem, if_neg, if_false, List.mem_append, List.map_cons,
        List.mem_cons, List.mem_singleton]
      tauto

/-- The grouping dict's keys are exactly the input keys. -/
theorem mem_keys_groupByKey (cars : List Car) (k : String × String × String) :
    k ∈ keysOf (groupByKey cars) ↔ k ∈ cars.map carKey := by
  rw [groupByKey, mem_keys_foldl]
  simp [keysOf]

/-- Every member of every group carries the group's key. -/
theorem insertGroup_members (gs : List ((String × String × String) × Car × List Car))
    (c : Car) (h : ∀ g ∈ gs, ∀ x ∈ g.2.1 :: g.2.2, carKey x = g.1) :
    ∀ g ∈ insertGroup gs c, ∀ x ∈ g.2.1 :: g.2.2, carKey x = g.1 := by
  induction gs with
  | nil =>
    intro g hg x hx
    simp [insertGroup] at hg
    subst hg
    simp at hx
    simp [hx]
  | cons g0 gs ih =>
    intro g hg x hx
    by_cases hg0 : g0.1 = carKey c
    · rw [insertGroup, if_pos hg0] at hg
      rcases List.mem_cons.mp hg with hg | hg
      · subst hg
        simp at hx
        rcases hx with hx | hx | hx
        · exact h g0 (List.mem_cons_self _ _) x (by simp [hx])
        · exact h g0 (List.mem_cons_self _ _) x (by simp [hx])
        · subst hx
          exact hg0.symm
      · exact h g (List.mem_cons_of_mem _ hg) x hx
    · rw [insertGroup, if_neg hg0] at hg
      rcases List.mem_cons.mp hg with hg | hg
      · subst hg
        exact h g (List.mem_cons_self _ _) x hx
      · exact ih (fun g' hg' => h g' (List.mem_cons_of_mem _ hg')) g hg x hx

/-- Every member of every group of the grouping dict carries the group's
key. -/
theorem groupByKey_members (cars : List Car) :
    ∀ g ∈ groupByKey cars, ∀ x ∈ g.2.1 :: g.2.2, carKey x = g.1 := by
  rw [groupByKey]
  generalize hgs : ([] : List ((String × String × String) × Car × List Car)) = gs
  have hbase : ∀ g ∈ gs, ∀ x ∈ g.2.1 :: g.2.2, carKey x = g.1 := by
    rw [← hgs]
    intro g hg
    cases hg
  clear hgs
  induction cars generalizing gs with
  | nil => exact hbase
  | cons c cars ih =>
    rw [List.foldl_cons]
    exact ih _ (insertGroup_members gs c hbase)

/-- A key in the dict is realized by a group at some index, and the
lookup returns that group's members. -/
theorem find_group_of_mem_keys
    (gs : List ((String × String × String) × Car × List Car))
    (k : String × String × String) (h : k ∈ keysOf gs) :
    ∃ i, ∃ hi : i < gs.length, (gs.get ⟨i, hi⟩).1 = k ∧
      groupLookup gs k = (gs.get ⟨i, hi⟩).2.1 :: (gs.get ⟨i, hi⟩).2.2 := by
  induction gs with
  | nil => simp [keysOf] at h
  | cons g gs ih =>
    by_cases hk : g.1 = k
    · refine ⟨0, by simp, hk, ?_⟩
      simp [groupLookup, List.find?, hk]
    · have hmem : k ∈ keysOf gs := by
        rw [keysOf_cons] at h
        rcases List.mem_cons.mp h with h | h
        · exact absurd h.symm hk
        · exact h
      obtain ⟨i, hi, hget, hlook⟩ := ih hmem
      refine ⟨i + 1, Nat.succ_lt_succ hi, by simpa using hget, ?_⟩
      rw [groupLookup_cons, if_neg hk, hlook]
      simp

/-- Inserting a fresh key appends a new singleton group. -/
theorem insertGroup_fresh (gs : List ((String × String × String) × Car × List Car))
    (c : Car) (h : ¬ carKey c ∈ keysOf gs) :
    insertGroup gs c = gs ++ [(carKey c, c, [])] := by
  induction gs with
  | nil => rfl
  | cons g gs ih =>
    have hg : ¬ g.1 = carKey c := by
      intro hc
      exact h (by simp [keysOf, hc])
    rw [insertGroup, if_neg hg, ih (fun hc => h (by simp [keysOf]; exact Or.inr (by simpa [keysOf] using hc)))]
    rfl

/-- With pairwise distinct input keys the grouping dict is the list of
singleton groups, in order. -/
theorem foldl_insertGroup_of_nodup (cars : List Car)
    (gs : List ((String × String × String) × Car × List Car))
    (h : (keysOf gs ++ cars.map carKey).Nodup) :
    cars.foldl insertGroup gs = gs ++ cars.map (fun c => (carKey c, c, [])) := by
  induction cars generalizing gs with
  | nil => simp
  | cons c cars ih =>
    rw [List.foldl_cons]
    have hfresh : ¬ carKey c ∈ keysOf gs := by
      rw [List.nodup_append] at h
      intro hc
      exact h.2.2 hc (by simp)
    rw [insertGroup_fresh gs c hfresh]
    have hnd : (keysOf (gs ++ [(carKey c, c, [])]) ++ cars.map carKey).Nodup := by
      have : keysOf (gs ++ [(carKey c, c, [])]) = keysOf gs ++ [carKey c] := by
        simp [keysOf]
      rw [this, List.append_assoc, List.singleton_append]
      simpa using h
    rw [ih _ hnd, List.append_assoc]
    rfl

/-- With pairwise distinct keys, grouping is the identity reshaping. -/
theorem groupByKey_of_nodup (cars : List Car) (h : (cars.map carKey).Nodup) :
    groupByKey cars = cars.map (fun c => (carKey c, c, [])) := by
  have := foldl_insertGroup_of_nodup cars [] (by simpa [keysOf] using h)
  simpa [groupByKey] using this

/-! ## Counting lemmas for the grouping dict -/

/-- One grouping step adds one to the total member count. -/
theorem insertGroup_totalCount
    (gs : List ((String × String × String) × Car × List Car)) (c : Car) :
    totalCount (insertGroup gs c) = totalCount gs + 1 := by
  induction gs with
  | nil => rfl
  | cons g gs ih =>
    by_cases hg : g.1 = carKey c
    · rw [insertGroup, if_pos hg]
      simp only [totalCount, List.map_cons, List.sum_cons, List.length_append,
        List.length_cons, List.length_nil]
      omega
    · rw [insertGroup, if_neg hg]
      simp only [totalCount, List.map_cons, List.sum_cons] at ih ⊢
      omega

/-- The fold's total member count accumulates the input length. -/
theorem foldl_totalCount (cars : List Car)
    (gs : List ((String × String × String) × Car × List Car)) :
    totalCount (cars.foldl insertGroup gs) = totalCount gs + cars.length := by
  induction cars generalizing gs with
  | nil => simp
  | cons c cars ih =>
    rw [List.foldl_cons, ih, insertGroup_totalCount, List.length_cons]
    omega

/-- Every group holds at least one member. -/
theorem length_le_totalCount
    (gs : List ((String × String × String) × Car × List Car)) :
    gs.length ≤ totalCount gs := by
  induction gs with
  | nil => simp [totalCount]
  | cons g gs ih =>
    have htot : totalCount (g :: gs) = g.2.2.length + 1 + totalCount gs := by
      simp only [totalCount, List.map_cons, List.sum_cons]
    rw [htot, List.length_cons]
    omega

/-- The counts agree exactly when every group is a singleton. -/
theorem length_eq_totalCount_iff
    (gs : List ((String × String × String) × Car × List Car)) :
    gs.length = totalCount gs ↔ ∀ g ∈ gs, g.2.2 = [] := by
  induction gs with
  | nil => simp [totalCount]
  | cons g gs ih =>
    have hle := length_le_totalCount gs
    have htot : totalCount (g :: gs) = g.2.2.length + 1 + totalCount gs := by
      simp only [totalCount, List.map_cons, List.sum_cons]
    constructor
    · intro h
      rw [htot, List.length_cons] at h
      have hz : g.2.2.length = 0 ∧ gs.length = totalCount gs := by omega
      intro g' hg'
      rcases List.mem_cons.mp hg' with hg' | hg'
      · subst hg'
        exact List.length_eq_zero.mp hz.1
      · exact ih.mp hz.2 g' hg'
    · intro h
      have h1 : g.2.2 = [] := h g (List.mem_cons_self _ _)
      have h2 : gs.length = totalCount gs :=
        ih.mpr (fun g' hg' => h g' (List.mem_cons_of_mem _ hg'))
      rw [htot, h1, List.length_cons]
      simp
      omega

/-- A duplicated key yields a group of at least two input records. -/
theorem not_nodup_exists_big_group (cars : List Car)
    (h : ¬ (cars.map carKey).Nodup) :
    ∃ k, 2 ≤ (groupOf cars k).length := by
  induction cars with
  | nil => simp at h
  | cons c cars ih =>
    rw [List.map_cons, List.nodup_cons] at h
    by_cases hmem : carKey c ∈ cars.map carKey
    · refine ⟨carKey c, ?_⟩
      obtain ⟨d, hd, hkd⟩ := List.mem_map.mp hmem
      have hdg : d ∈ groupOf cars (carKey c) := by
        simp [groupOf, List.mem_filter, hd, hkd]
      have hpos : 0 < (groupOf cars (carKey c)).length :=
        List.length_pos_of_mem hdg
      have hcons : groupOf (c :: cars) (carKey c) = c :: groupOf cars (carKey c) := by
        simp [groupOf, List.filter_cons]
      rw [hcons]
      simp only [List.length_cons]
      omega
    · have hnd : ¬ (cars.map carKey).Nodup := fun hc => h ⟨hmem, hc⟩
      obtain ⟨k, hk⟩ := ih hnd
      refine ⟨k, ?_⟩
      have : (groupOf cars k).length ≤ (groupOf (c :: cars) k).length := by
        simp only [groupOf, List.filter_cons]
        by_cases hc : carKey c = k <;> simp [hc]
      omega

/-- Every group is a singleton iff the input keys are pairwise
distinct. -/
theorem groups_singleton_iff_nodup (cars : List Car) :
    (∀ g ∈ groupByKey cars, g.2.2 = []) ↔ (cars.map carKey).Nodup := by
  constructor
  · intro h
    by_contra hnd
    obtain ⟨k, hk⟩ := not_nodup_exists_big_group cars hnd
    have hmemk : k ∈ cars.map carKey := by
      rcases hg : groupOf cars k with _ | ⟨d, rest⟩
      · rw [hg] at hk; simp at hk
      · have hd : d ∈ groupOf cars k := by rw [hg]; simp
        simp only [groupOf, List.mem_filter, decide_eq_true_eq] at hd
        exact List.mem_map.mpr ⟨d, hd.1, hd.2⟩
    have hmemk' : k ∈ keysOf (groupByKey cars) :=
      (mem_keys_groupByKey cars k).mpr hmemk
    obtain ⟨i, hi, hget, hlook⟩ := find_group_of_mem_keys _ k hmemk'
    have hlen : (groupLookup (groupByKey cars) k).length =
        ((groupByKey cars).get ⟨i, hi⟩).2.2.length + 1 := by
      rw [hlook]
      simp
    rw [groupByKey_lookup] at hlen
    have hrest : ((groupByKey cars).get ⟨i, hi⟩).2.2 = [] :=
      h _ (List.get_mem _ i hi)
    rw [hrest] at hlen
    simp at hlen
    omega
  · intro h g hg
    rw [groupByKey_of_nodup cars h] at hg
    obtain ⟨c, _, hc⟩ := List.mem_map.mp hg
    rw [← hc]

/-! ## Lemmas on the deduplicator -/

/-- A record never ranks strictly below itself. -/
theorem rankLtOk_irrefl (c : Car) : rankLtOk c c = false := by
  unfold rankLtOk
  rcases hp : parse_date c.available with e | kc
  · rfl
  · simp [keyLtB_irrefl]

/-- The record kept for a group is one of the group's members. -/
theorem dedupGroup_mem (g : (String × String × String) × Car × List Car)
    (c : Car) (h : dedupGroup g = Except.ok c) : c ∈ g.2.1 :: g.2.2 := by
  unfold dedupGroup at h
  rcases hr : g.2.2 with _ | ⟨d, rest⟩ <;> rw [hr] at h <;> dsimp only at h
  · cases h
    simp
  · unfold selectNewest at h
    rcases hkd : mapMEx (fun c => (parse_date c.available).map (fun k => (k, c)))
        (g.2.1 :: d :: rest) with e | keyed <;> rw [hkd] at h <;> dsimp only at h
    · simp at h
    · rcases hs : sortDescKeyed keyed with _ | ⟨kc, tl⟩ <;> rw [hs] at h <;>
        dsimp only at h
      · simp at h
      · injection h with hc
        have hkc : kc ∈ sortDescKeyed keyed := by rw [hs]; simp
        have hkeyed : kc ∈ keyed := sortDescKeyed_mem.mp hkc
        obtain ⟨a, ha, hfa⟩ := mapMEx_ok_mem hkd kc hkeyed
        obtain ⟨kx, _, hkx⟩ := exceptMap_ok hfa
        rw [← hc, hkx]
        exact ha

/-- The kept records carry the groups' keys, in order. -/
theorem remove_duplicates_keys (cars out : List Car)
    (h : remove_duplicates cars = Except.ok out) :
    out.map carKey = keysOf (groupByKey cars) := by
  have hlen : out.length = (groupByKey cars).length := mapMEx_ok_length h
  refine List.ext_get (by simp [hlen, keysOf]) ?_
  intro n h1 h2
  have hn : n < out.length := by simpa using h1
  have hng : n < (groupByKey cars).length := by simpa [keysOf] using h2
  have hsel := mapMEx_ok_get h n hng hn
  have hmem := dedupGroup_mem _ _ hsel
  have hkey := groupByKey_members cars _ (List.get_mem _ n hng) _ hmem
  simp only [List.get_map, keysOf]
  exact hkey

/-- The deduplicator is the identity on a list of singleton groups. -/
theorem mapMEx_dedup_singletons (l : List Car) :
    mapMEx dedupGroup (l.map (fun c => (carKey c, c, []))) = Except.ok l := by
  induction l with
  | nil => rfl
  | cons c cs ih =>
    have h1 : dedupGroup (carKey c, c, []) = Except.ok c := rfl
    simp only [List.map_cons, mapMEx, h1, ih]

/-- C4: deduplication is idempotent — whenever it succeeds, running it
again on its own output returns that output unchanged (the output's keys
are pairwise distinct, so every group is a singleton on the second
run). -/
theorem remove_duplicates_idempotent (cars out : List Car)
    (h : remove_duplicates cars = Except.ok out) :
    remove_duplicates out = Except.ok out := by
  have hkeys : out.map carKey = keysOf (groupByKey cars) :=
    remove_duplicates_keys cars out h
  have hnd : (out.map carKey).Nodup := by
    rw [hkeys]
    exact groupByKey_keys_nodup cars
  rw [remove_duplicates, groupByKey_of_nodup out hnd]
  exact mapMEx_dedup_singletons out

/-- C4 witness: the idempotence theorem applied to a two-record input with
a duplicated key. -/
theorem remove_duplicates_idempotent_witness :
    remove_duplicates
        [{ year := "2015", make := "T", model := "C",
           location := "L2", available := "3/15/2024" }] =
      Except.ok
        [{ year := "2015", make := "T", model := "C",
           location := "L2", available := "3/15/2024" }] :=
  remove_duplicates_idempotent
    [{ year := "2015", make := "T", model := "C",
       location := "L1", available := "1/10/2024" },
     { year := "2015", make := "T", model := "C",
       location := "L2", available := "3/15/2024" }]
    [{ year := "2015", make := "T", model := "C",
       location := "L2", available := "3/15/2024" }] rfl

/-- C5: the deduplicator never lengthens its input, and preserves the
count exactly when the input's (year, make, model) triples are pairwise
distinct. -/
theorem remove_duplicates_count (cars out : List Car)
    (h : remove_duplicates cars = Except.ok out) :
    out.length ≤ cars.length ∧
      (out.length = cars.length ↔ (cars.map carKey).Nodup) := by
  have hlen : out.length = (groupByKey cars).length := mapMEx_ok_length h
  have htot : totalCount (groupByKey cars) = cars.length := by
    have h0 := foldl_totalCount cars []
    have hz : totalCount ([] : List ((String × String × String) × Car × List Car)) = 0 := rfl
    rw [groupByKey]
    omega
  have hle := length_le_totalCount (groupByKey cars)
  constructor
  · omega
  · rw [hlen, ← htot, length_eq_totalCount_iff]
    exact groups_singleton_iff_nodup cars

/-- C5 witness: the count theorem applied to a two-record input with a
duplicated key: the output is strictly shorter and the keys are not
pairwise distinct. -/
theorem remove_duplicates_count_witness :
    ([{ year := "2015", make := "T", model := "C",
        location := "L2", available := "3/15/2024" }] : List Car).length ≤
      ([{ year := "2015", make := "T", model := "C",
          location := "L1", available := "1/10/2024" },
        { year := "2015", make := "T", model := "C",
          location := "L2", available := "3/15/2024" }] : List Car).length ∧
    (([{ year := "2015", make := "T", model := "C",
         location := "L2", available := "3/15/2024" }] : List Car).length =
        ([{ year := "2015", make := "T", model := "C",
            location := "L1", available := "1/10/2024" },
          { year := "2015", make := "T", model := "C",
            location := "L2", available := "3/15/2024" }] : List Car).length ↔
      (([{ year := "2015", make := "T", model := "C",
           location := "L1", available := "1/10/2024" },
         { year := "2015", make := "T", model := "C",
           location := "L2", available := "3/15/2024" }] : List Car).map
        carKey).Nodup) :=
  remove_duplicates_count
    [{ year := "2015", make := "T", model := "C",
       location := "L1", available := "1/10/2024" },
     { year := "2015", make := "T", model := "C",
       location := "L2", available := "3/15/2024" }]
    [{ year := "2015", make := "T", model := "C",
       location := "L2", available := "3/15/2024" }] rfl

/-- In a list with pairwise distinct keys, filtering by the key of the
element at an index yields exactly that element. -/
theorem filter_key_single (out : List Car) (hnd : (out.map carKey).Nodup)
    (i : Nat) (hi : i < out.length) (k : String × String × String)
    (hk : carKey (out.get ⟨i, hi⟩) = k) :
    out.filter (fun c => decide (carKey c = k)) = [out.get ⟨i, hi⟩] := by
  induction out generalizing i with
  | nil => cases hi
  | cons c rest ih =>
    rw [List.map_cons, List.nodup_cons] at hnd
    cases i with
    | zero =>
      have hck : carKey c = k := hk
      have hnil : rest.filter (fun c' => decide (carKey c' = k)) = [] := by
        rw [List.filter_eq_nil]
        intro a ha
        simp only [decide_eq_true_eq]
        intro hak
        exact hnd.1 (List.mem_map.mpr ⟨a, ha, by rw [hak, ← hck]⟩)
      rw [List.filter_cons, if_pos (by simpa using hck), hnil]
      rfl
    | succ i =>
      have hi' : i < rest.length := Nat.lt_of_succ_lt_succ hi
      have hkr : carKey (rest.get ⟨i, hi'⟩) = k := hk
      have hck : ¬ carKey c = k := by
        intro hc
        refine hnd.1 (List.mem_map.mpr ⟨rest.get ⟨i, hi'⟩, List.get_mem _ i hi', ?_⟩)
        rw [hkr]
        exact hc.symm
      rw [List.filter_cons, if_neg (by simpa using hck), ih hnd.2 i hi' hkr]
      rfl

/-- Indexing agrees across equal lists. -/
theorem get_congr {l l' : List Car} (h : l = l') (i : Nat) (hi : i < l.length)
    (hi' : i < l'.length) : l.get ⟨i, hi⟩ = l'.get ⟨i, hi'⟩ := by
  subst h
  rfl

/-- C3: for every identity key present in the input, the deduplicator's
output contains exactly one record with that key: the member of the key's
group whose availableDate ranks highest, and, among ties at the maximal
rank, the first one in input order (every strictly earlier group member
ranks strictly lower). -/
theorem remove_duplicates_selects_first_max (cars out : List Car)
    (h : remove_duplicates cars = Except.ok out)
    (k : String × String × String) (hk : k ∈ cars.map carKey) :
    ∃ j, ∃ hj : j < (groupOf cars k).length,
      out.filter (fun c => decide (carKey c = k)) =
        [(groupOf cars k).get ⟨j, hj⟩] ∧
      (∀ i (hi : i < (groupOf cars k).length),
        rankLtOk ((groupOf cars k).get ⟨j, hj⟩)
          ((groupOf cars k).get ⟨i, hi⟩) = false) ∧
      (∀ i (hi : i < j),
        rankLtOk ((groupOf cars k).get ⟨i, Nat.lt_trans hi hj⟩)
          ((groupOf cars k).get ⟨j, hj⟩) = true) := by
  have hmemk : k ∈ keysOf (groupByKey cars) := (mem_keys_groupByKey cars k).mpr hk
  obtain ⟨i0, hi0, hgk, hlook⟩ := find_group_of_mem_keys _ k hmemk
  have hgrp : groupOf cars k =
      ((groupByKey cars).get ⟨i0, hi0⟩).2.1 ::
        ((groupByKey cars).get ⟨i0, hi0⟩).2.2 := by
    rw [← groupByKey_lookup]
    exact hlook
  have hlen : out.length = (groupByKey cars).length := mapMEx_ok_length h
  have ho : i0 < out.length := by omega
  have hsel : dedupGroup ((groupByKey cars).get ⟨i0, hi0⟩) =
      Except.ok (out.get ⟨i0, ho⟩) := mapMEx_ok_get h i0 hi0 ho
  have hkeys : out.map carKey = keysOf (groupByKey cars) :=
    remove_duplicates_keys cars out h
  have hnd : (out.map carKey).Nodup := by
    rw [hkeys]
    exact groupByKey_keys_nodup cars
  have hsk : carKey (out.get ⟨i0, ho⟩) = k := by
    have hmem := dedupGroup_mem _ _ hsel
    have hx := groupByKey_members cars _ (List.get_mem _ i0 hi0) _ hmem
    rw [hx, hgk]
  have hfil : out.filter (fun c => decide (carKey c = k)) = [out.get ⟨i0, ho⟩] :=
    filter_key_single out hnd i0 ho k hsk
  unfold dedupGroup at hsel
  rcases hrest : ((groupByKey cars).get ⟨i0, hi0⟩).2.2 with _ | ⟨d, ds⟩ <;>
    rw [hrest] at hsel hgrp <;> dsimp only at hsel
  · -- singleton group: never compared, kept as is
    injection hsel with hone
    have hj0 : 0 < (groupOf cars k).length := by
      rw [hgrp]
      simp
    have h00 : (groupOf cars k).get ⟨0, hj0⟩ =
        ((groupByKey cars).get ⟨i0, hi0⟩).2.1 :=
      get_congr hgrp 0 hj0 (by simp)
    refine ⟨0, hj0, ?_, ?_, ?_⟩
    · rw [hfil, h00, hone]
    · intro i hi
      have hi0' : i = 0 := by
        rw [hgrp] at hi
        simpa using hi
      subst hi0'
      exact rankLtOk_irrefl _
    · intro i hi
      exact absurd hi (Nat.not_lt_zero i)
  · -- group of two or more members
    unfold selectNewest at hsel
    rcases hkd : mapMEx (fun c => (parse_date c.available).map (fun k => (k, c)))
        (((groupByKey cars).get ⟨i0, hi0⟩).2.1 :: d :: ds) with e | keyed <;>
      rw [hkd] at hsel <;> dsimp only at hsel
    · simp at hsel
    · rcases hs : sortDescKeyed keyed with _ | ⟨kc, tl⟩ <;> rw [hs] at hsel <;>
        dsimp only at hsel
      · simp at hsel
      · injection hsel with hselc
        have hfm : firstMaxKeyed keyed = some kc := by
          rw [← sortDescKeyed_head?, hs]
          rfl
        obtain ⟨j, hjk, hget, hmax, hfirst⟩ := firstMaxKeyed_spec keyed kc hfm
        have hklen : keyed.length =
            (((groupByKey cars).get ⟨i0, hi0⟩).2.1 :: d :: ds).length :=
          mapMEx_ok_length hkd
        have hpair : ∀ i (hik : i < keyed.length)
            (hig : i < (((groupByKey cars).get ⟨i0, hi0⟩).2.1 :: d :: ds).length),
            (keyed.get ⟨i, hik⟩).2 =
              (((groupByKey cars).get ⟨i0, hi0⟩).2.1 :: d :: ds).get ⟨i, hig⟩ ∧
            parse_date ((((groupByKey cars).get ⟨i0, hi0⟩).2.1 :: d :: ds).get
                ⟨i, hig⟩).available = Except.ok (keyed.get ⟨i, hik⟩).1 := by
          intro i hik hig
          have hf := mapMEx_ok_get hkd i hig hik
          obtain ⟨kx, hpx, hkx⟩ := exceptMap_ok hf
          constructor
          · rw [hkx]
          · rw [hkx, hpx]
        rw [hgrp]
        have hjg : j <
            ((((groupByKey cars).get ⟨i0, hi0⟩).2.1 :: d :: ds)).length := by
          omega
        have hpj := hpair j hjk hjg
        have hkc2 : kc.2 =
            (((groupByKey cars).get ⟨i0, hi0⟩).2.1 :: d :: ds).get ⟨j, hjg⟩ := by
          rw [← hget]
          exact hpj.1
        have hkc1 : parse_date
            ((((groupByKey cars).get ⟨i0, hi0⟩).2.1 :: d :: ds).get
              ⟨j, hjg⟩).available = Except.ok kc.1 := by
          have h2 := hpj.2
          rw [hget] at h2
          exact h2
        refine ⟨j, hjg, ?_, ?_, ?_⟩
        · rw [hfil, ← hselc, hkc2]
        · intro i hi
          have hik : i < keyed.length := by omega
          have hpi := hpair i hik hi
          unfold rankLtOk
          rw [hkc1, hpi.2]
          dsimp only
          exact hmax i hik
        · intro i hi
          have hik : i < keyed.length := by omega
          have hig : i <
              ((((groupByKey cars).get ⟨i0, hi0⟩).2.1 :: d :: ds)).length := by
            omega
          have hpi := hpair i hik hig
          unfold rankLtOk
          rw [hpi.2, hkc1]
          dsimp only
          exact hfirst i hi

/-- C3 witness: two records with the same identity key; the later, newer
one is kept; the earlier one ranks strictly lower. -/
theorem remove_duplicates_selects_first_max_witness :
    ∃ j, ∃ hj : j <
        (groupOf
          [{ year := "2015", make := "T", model := "C",
             location := "L1", available := "1/10/2024" },
           { year := "2015", make := "T", model := "C",
             location := "L2", available := "3/15/2024" }]
          ("2015", "T", "C")).length,
      ([{ year := "2015", make := "T", model := "C",
          location := "L2", available := "3/15/2024" }] : List Car).filter
          (fun c => decide (carKey c = ("2015", "T", "C"))) =
        [(groupOf
            [{ year := "2015", make := "T", model := "C",
               location := "L1", available := "1/10/2024" },
             { year := "2015", make := "T", model := "C",
               location := "L2", available := "3/15/2024" }]
            ("2015", "T", "C")).get ⟨j, hj⟩] ∧
      (∀ i (hi : i <
          (groupOf
            [{ year := "2015", make := "T", model := "C",
               location := "L1", available := "1/10/2024" },
             { year := "2015", make := "T", model := "C",
               location := "L2", available := "3/15/2024" }]
            ("2015", "T", "C")).length),
        rankLtOk
          ((groupOf
            [{ year := "2015", make := "T", model := "C",
               location := "L1", available := "1/10/2024" },
             { year := "2015", make := "T", model := "C",
               location := "L2", available := "3/15/2024" }]
            ("2015", "T", "C")).get ⟨j, hj⟩)
          ((groupOf
            [{ year := "2015", make := "T", model := "C",
               location := "L1", available := "1/10/2024" },
             { year := "2015", make := "T", model := "C",
               location := "L2", available := "3/15/2024" }]
            ("2015", "T", "C")).get ⟨i, hi⟩) = false) ∧
      (∀ i (hi : i < j),
        rankLtOk
          ((groupOf
            [{ year := "2015", make := "T", model := "C",
               location := "L1", available := "1/10/2024" },
             { year := "2015", make := "T", model := "C",
               location := "L2", available := "3/15/2024" }]
            ("2015", "T", "C")).get ⟨i, Nat.lt_trans hi hj⟩)
          ((groupOf
            [{ year := "2015", make := "T", model := "C",
               location := "L1", available := "1/10/2024" },
             { year := "2015", make := "T", model := "C",
               location := "L2", available := "3/15/2024" }]
            ("2015", "T", "C")).get ⟨j, hj⟩) = true) :=
  remove_duplicates_selects_first_max
    [{ year := "2015", make := "T", model := "C",
       location := "L1", available := "1/10/2024" },
     { year := "2015", make := "T", model := "C",
       location := "L2", available := "3/15/2024" }]
    [{ year := "2015", make := "T", model := "C",
       location := "L2", available := "3/15/2024" }] rfl
    ("2015", "T", "C") (by decide)

/-! ## C7: the flat listing is date-descending -/

/-- Strengthening a chain along a membership invariant. -/
theorem chain'_imp_of_mem {α : Type} {R S : α → α → Prop} {P : α → Prop}
    {l : List α} (hl : List.Chain' R l) (hP : ∀ x ∈ l, P x)
    (himp : ∀ x y, P x → P y → R x y → S x y) : List.Chain' S l := by
  induction l with
  | nil => simp
  | cons a l ih =>
    rw [List.chain'_cons'] at hl ⊢
    refine ⟨?_, ih hl.2 (fun x hx => hP x (List.mem_cons_of_mem _ hx))⟩
    intro z hz
    exact himp a z (hP a (List.mem_cons_self _ _))
      (hP z (List.mem_cons_of_mem _ (List.mem_of_mem_head? hz))) (hl.1 z hz)

/-- C7: whenever the pipeline's flat listing is produced, it is sorted so
that no record ranks strictly below its successor under the date ranking
function (descending order; ties stay adjacent in stable order). -/
theorem convert_to_site_format_sorted (cars out : List Car)
    (h : convert_to_site_format cars = Except.ok out) :
    List.Chain' (fun a b => rankGeB a b = true) out := by
  unfold convert_to_site_format at h
  rcases hrd : remove_duplicates cars with e | cars2 <;> rw [hrd] at h <;>
    dsimp only at h
  · simp at h
  · rcases hmk : mapMEx (fun c => (parse_date c.available).map (fun k => (k, c)))
        cars2 with e | keyed <;> rw [hmk] at h <;> dsimp only at h
    · simp at h
    · injection h with hout
      rw [← hout, List.chain'_map]
      refine chain'_imp_of_mem (P := fun x => parse_date x.2.available = Except.ok x.1)
        (sortDescKeyed_chain' keyed) ?_ ?_
      · intro x hx
        have hxk : x ∈ keyed := sortDescKeyed_mem.mp hx
        obtain ⟨a, _, hfa⟩ := mapMEx_ok_mem hmk x hxk
        obtain ⟨kx, hpx, hkx⟩ := exceptMap_ok hfa
        rw [hkx]
        exact hpx
      · intro x y hPx hPy hR
        unfold rankGeB
        rw [hPx, hPy]
        simp [hR]

/-- C7 witness: the sortedness theorem applied to a three-record input
with a malformed-date record, which sorts last. -/
theorem convert_to_site_format_sorted_witness :
    List.Chain' (fun a b => rankGeB a b = true)
      [{ year := "2015", make := "T", model := "C",
         location := "L2", available := "3/15/2024" },
       { year := "2014", make := "H", model := "A",
         location := "L1", available := "1/10/2024" },
       { year := "2016", make := "F", model := "B",
         location := "L3", available := "unknown" }] :=
  convert_to_site_format_sorted
    [{ year := "2016", make := "F", model := "B",
       location := "L3", available := "unknown" },
     { year := "2014", make := "H", model := "A",
       location := "L1", available := "1/10/2024" },
     { year := "2015", make := "T", model := "C",
       location := "L2", available := "3/15/2024" }] _ rfl

/-! ## Lemmas on the consolidation dict -/

/-- Lookup on a cons cell of the consolidation dict. -/
theorem consLookup_cons (g : (String × String) × List String × List String)
    (gs : List ((String × String) × List String × List String))
    (k : String × String) :
    consLookup (g :: gs) k = if g.1 = k then g.2 else consLookup gs k := by
  by_cases h : g.1 = k <;> simp [consLookup, List.find?, h]

/-- Effect of one consolidation step on a lookup. -/
theorem insertCons_lookup (gs : List ((String × String) × List String × List String))
    (c : Car) (k : String × String) :
    consLookup (insertCons gs c) k =
      if consKey c = k then
        ((consLookup gs k).1 ++ [c.available], (consLookup gs k).2 ++ [c.location])
      else consLookup gs k := by
  induction gs with
  | nil =>
    by_cases hk : consKey c = k <;>
      simp [consLookup, insertCons, List.find?, hk]
  | cons g gs ih =>
    by_cases hg : g.1 = consKey c
    · rw [insertCons, if_pos hg]
      by_cases hgk : g.1 = k
      · have hck : consKey c = k := hg ▸ hgk
        rw [consLookup_cons, consLookup_cons, if_pos hgk, if_pos hgk, if_pos hck]
      · have hck : ¬ consKey c = k := fun hc => hgk (hg ▸ hc)
        rw [consLookup_cons, consLookup_cons, if_neg hgk, if_neg hgk, if_neg hck]
    · rw [insertCons, if_neg hg]
      by_cases hgk : g.1 = k
      · have hck : ¬ consKey c = k := fun hc => hg (hgk ▸ hc ▸ rfl)
        rw [consLookup_cons, consLookup_cons, if_pos hgk, if_pos hgk, if_neg hck]
      · rw [consLookup_cons, consLookup_cons, if_neg hgk, if_neg hgk, ih]

/-- The consolidation fold accumulates exactly the key's dates and
locations, in input order. -/
theorem foldl_insertCons_lookup (cars : List Car)
    (gs : List ((String × String) × List String × List String))
    (k : String × String) :
    consLookup (cars.foldl insertCons gs) k =
      ((consLookup gs k).1 ++ (consGroupOf cars k).map (fun c => c.available),
       (consLookup gs k).2 ++ (consGroupOf cars k).map (fun c => c.location)) := by
  induction cars generalizing gs with
  | nil => simp [consGroupOf]
  | cons c cars ih =>
    rw [List.foldl_cons, ih, insertCons_lookup]
    by_cases h : consKey c = k <;>
      simp [consGroupOf, List.filter_cons, h]

/-- The consolidation dict's group for a key holds exactly the key's
dates and locations. -/
theorem consGroups_lookup (cars : List Car) (k : String × String) :
    consLookup (consGroups cars) k =
      ((consGroupOf cars k).map (fun c => c.available),
       (consGroupOf cars k).map (fun c => c.location)) := by
  have h := foldl_insertCons_lookup cars [] k
  have hz : consLookup ([] : List ((String × String) × List String × List String)) k =
      ([], []) := rfl
  rw [consGroups, h, hz]
  simp

/-- A key present in the input appears in the consolidation dict. -/
theorem mem_keys_consGroups (cars : List Car) (k : String × String)
    (hk : k ∈ cars.map consKey) :
    k ∈ (consGroups cars).map (fun g => g.1) := by
  have hstep : ∀ (gs : List ((String × String) × List String × List String)) c,
      (insertCons gs c).map (fun g => g.1) =
        if consKey c ∈ gs.map (fun g => g.1) then gs.map (fun g => g.1)
        else gs.map (fun g => g.1) ++ [consKey c] := by
    intro gs c
    induction gs with
    | nil => simp [insertCons]
    | cons g gs ih =>
      by_cases hg : g.1 = consKey c
      · rw [insertCons, if_pos hg]
        have hmem : consKey c ∈ (g :: gs).map (fun g => g.1) := by
          rw [List.map_cons]
          exact List.mem_cons.mpr (Or.inl hg.symm)
        rw [if_pos hmem, List.map_cons, List.map_cons]
      · rw [insertCons, if_neg hg]
        have hne : ¬ consKey c = g.1 := fun hc => hg hc.symm
        by_cases hmem : consKey c ∈ gs.map (fun g => g.1)
        · have hmem' : consKey c ∈ (g :: gs).map (fun g => g.1) := by
            rw [List.map_cons]
            exact List.mem_cons.mpr (Or.inr hmem)
          rw [if_pos hmem', List.map_cons, List.map_cons, ih, if_pos hmem]
        · have hmem' : ¬ consKey c ∈ (g :: gs).map (fun g => g.1) := by
            rw [List.map_cons]
            intro hc
            rcases List.mem_cons.mp hc with hc | hc
            · exact hne hc
            · exact hmem hc
          rw [if_neg hmem', List.map_cons, List.map_cons, ih, if_neg hmem]
          rfl
  have hfold : ∀ (cars : List Car)
      (gs : List ((String × String) × List String × List String)),
      k ∈ gs.map (fun g => g.1) ∨ k ∈ cars.map consKey →
        k ∈ (cars.foldl insertCons gs).map (fun g => g.1) := by
    intro cars
    induction cars with
    | nil =>
      intro gs h
      rcases h with h | h
      · exact h
      · simp at h
    | cons c cars ih =>
      intro gs h
      rw [List.foldl_cons]
      refine ih _ ?_
      rcases h with h | h
      · left
        rw [hstep]
        by_cases hmem : consKey c ∈ gs.map (fun g => g.1)
        · simpa [hmem] using h
        · rw [if_neg hmem]
          exact List.mem_append.mpr (Or.inl h)
      · rw [List.map_cons] at h
        rcases List.mem_cons.mp h with h | h
        · left
          rw [hstep]
          by_cases hmem : consKey c ∈ gs.map (fun g => g.1)
          · rw [if_pos hmem]
            exact h ▸ hmem
          · rw [if_neg hmem]
            exact List.mem_append.mpr (Or.inr (by simp [h]))
        · right
          exact h
  exact hfold cars [] (Or.inr hk)

/-- A key of the consolidation dict is realized by a group whose payload
the lookup returns. -/
theorem consFind_of_mem (gs : List ((String × String) × List String × List String))
    (k : String × String) (h : k ∈ gs.map (fun g => g.1)) :
    ∃ g, g ∈ gs ∧ g.1 = k ∧ consLookup gs k = g.2 := by
  induction gs with
  | nil => simp at h
  | cons g gs ih =>
    by_cases hk : g.1 = k
    · exact ⟨g, List.mem_cons_self _ _, hk, by rw [consLookup_cons, if_pos hk]⟩
    · have hmem : k ∈ gs.map (fun g => g.1) := by
        rw [List.map_cons] at h
        rcases List.mem_cons.mp h with h | h
        · exact absurd h.symm hk
        · exact h
      obtain ⟨g', hg', hk', hlook'⟩ := ih hmem
      exact ⟨g', List.mem_cons_of_mem _ hg', hk',
        by rw [consLookup_cons, if_neg hk, hlook']⟩

/-- Membership is preserved by the item sort. -/
theorem sortConsItems_mem {y : (String × String) × List String × List String}
    {l : List ((String × String) × List String × List String)} :
    y ∈ sortConsItems l ↔ y ∈ l := by
  have hins : ∀ (x : (String × String) × List String × List String) l,
      y ∈ insertAscCons x l ↔ y = x ∨ y ∈ l := by
    intro x l
    induction l with
    | nil => simp [insertAscCons]
    | cons z zs ih =>
      unfold insertAscCons
      by_cases h : pairLtB x.1 z.1 <;> simp [h, ih] <;> tauto
  induction l with
  | nil => simp [sortConsItems]
  | cons x xs ih => simp [sortConsItems, hins, ih]

/-- Membership is preserved by the entry sort. -/
theorem sortEntries_mem {y : ConsolidatedEntry} {l : List ConsolidatedEntry} :
    y ∈ sortEntries l ↔ y ∈ l := by
  have hins : ∀ (x : ConsolidatedEntry) l,
      y ∈ insertAscEntry x l ↔ y = x ∨ y ∈ l := by
    intro x l
    induction l with
    | nil => simp [insertAscEntry]
    | cons z zs ih =>
      unfold insertAscEntry
      by_cases h : pairLtB (x.car, x.year) (z.car, z.year) <;>
        simp [h, ih] <;> tauto
  induction l with
  | nil => simp [sortEntries]
  | cons x xs ih => simp [sortEntries, hins, ih]

/-! ## Lemmas on first-occurrence deduplication -/

/-- Membership is preserved by the spec-side deduplication. -/
theorem dedupFirstSpec_mem {a : String} {l : List String} :
    a ∈ dedupFirstSpec l ↔ a ∈ l := by
  induction l with
  | nil => simp [dedupFirstSpec]
  | cons x xs ih =>
    unfold dedupFirstSpec
    by_cases hax : a = x
    · simp [hax]
    · simp [List.mem_filter, hax, ih]

/-- The spec-side deduplication yields pairwise distinct values. -/
theorem dedupFirstSpec_nodup (l : List String) : (dedupFirstSpec l).Nodup := by
  induction l with
  | nil => simp [dedupFirstSpec]
  | cons x xs ih =>
    unfold dedupFirstSpec
    refine List.Nodup.cons ?_ (List.Nodup.filter _ ih)
    intro hmem
    have := (List.mem_filter.mp hmem).2
    simp at this

/-- The spec-side deduplication commutes with filtering. -/
theorem dedupFirstSpec_filter (p : String → Bool) (l : List String) :
    (dedupFirstSpec l).filter p = dedupFirstSpec (l.filter p) := by
  induction l with
  | nil => rfl
  | cons x xs ih =>
    have hD : dedupFirstSpec (x :: xs) =
        x :: (dedupFirstSpec xs).filter (fun y => decide (y ≠ x)) := rfl
    by_cases hp : p x = true
    · have hF : (x :: xs).filter p = x :: xs.filter p := by
        rw [List.filter_cons, if_pos hp]
      have hD2 : dedupFirstSpec (x :: xs.filter p) =
          x :: (dedupFirstSpec (xs.filter p)).filter (fun y => decide (y ≠ x)) :=
        rfl
      rw [hD, hF, hD2, List.filter_cons, if_pos hp]
      congr 1
      rw [← ih, List.filter_filter, List.filter_filter]
      apply List.filter_congr
      intro a _
      rw [Bool.and_comm]
    · have hF : (x :: xs).filter p = xs.filter p := by
        rw [List.filter_cons, if_neg hp]
      rw [hD, hF, List.filter_cons, if_neg hp]
      have hcomm : ((dedupFirstSpec xs).filter (fun y => decide (y ≠ x))).filter p =
          ((dedupFirstSpec xs).filter p).filter (fun y => decide (y ≠ x)) := by
        rw [List.filter_filter, List.filter_filter]
        apply List.filter_congr
        intro a _
        rw [Bool.and_comm]
      rw [hcomm, ih]
      apply List.filter_eq_self.mpr
      intro a ha
      have hmem : a ∈ xs.filter p := dedupFirstSpec_mem.mp ha
      have hpa : p a = true := (List.mem_filter.mp hmem).2
      simp only [decide_eq_true_eq]
      intro hax
      rw [hax] at hpa
      exact hp hpa

/-- The seen-set fold, over an arbitrary accumulator. -/
theorem foldl_uniqueFirst (l : List String) (acc : List String) :
    l.foldl (fun acc v => if v ∈ acc then acc else acc ++ [v]) acc =
      acc ++ dedupFirstSpec (l.filter (fun v => decide (¬ v ∈ acc))) := by
  induction l generalizing acc with
  | nil => simp [dedupFirstSpec]
  | cons x xs ih =>
    rw [List.foldl_cons]
    by_cases hx : x ∈ acc
    · rw [if_pos hx, ih, List.filter_cons, if_neg (by simpa using hx)]
    · rw [if_neg hx, ih, List.filter_cons, if_pos (by simpa using hx)]
      have hD : dedupFirstSpec (x :: xs.filter (fun v => decide (¬ v ∈ acc))) =
          x :: (dedupFirstSpec (xs.filter (fun v => decide (¬ v ∈ acc)))).filter
            (fun y => decide (y ≠ x)) := rfl
      rw [hD, List.append_assoc, List.singleton_append]
      congr 2
      rw [dedupFirstSpec_filter, List.filter_filter]
      congr 1
      apply List.filter_congr
      intro a _
      by_cases hax : a = x <;> by_cases haa : a ∈ acc <;>
        simp [hax, haa, List.mem_append]

/-- The implementation's seen-set deduplication equals the spec-side
first-occurrence deduplication. -/
theorem uniqueFirst_eq (l : List String) : uniqueFirst l = dedupFirstSpec l := by
  rw [uniqueFirst, foldl_uniqueFirst]
  have : l.filter (fun v => decide (¬ v ∈ ([] : List String))) = l := by
    apply List.filter_eq_self.mpr
    intro a _
    simp
  rw [this, List.nil_append]

/-- The deduplicated list counts exactly the distinct values. -/
theorem uniqueFirst_length_toFinset (l : List String) :
    (uniqueFirst l).length = l.toFinset.card := by
  rw [uniqueFirst_eq]
  have hnd := dedupFirstSpec_nodup l
  have hset : (dedupFirstSpec l).toFinset = l.toFinset := by
    ext a
    simp [List.mem_toFinset, dedupFirstSpec_mem]
  rw [← hset, List.toFinset_card_of_nodup hnd]

/-! ## Lemmas on rendering -/

/-- String concatenation concatenates the character data. -/
theorem data_append (s t : String) : (s ++ t).data = s.data ++ t.data := rfl

/-- Every piece is contiguous inside the joined string. -/
theorem mem_joinSep_contains (sep : String) (pieces : List String) (p : String)
    (hp : p ∈ pieces) : p.data <:+: (joinSep sep pieces).data := by
  induction pieces with
  | nil => cases hp
  | cons q qs ih =>
    cases qs with
    | nil =>
      simp at hp
      subst hp
      exact ⟨[], [], by simp [joinSep]⟩
    | cons r rs =>
      have hJ : joinSep sep (q :: r :: rs) = q ++ sep ++ joinSep sep (r :: rs) :=
        rfl
      rcases List.mem_cons.mp hp with hp | hp
      · subst hp
        refine ⟨[], (sep ++ joinSep sep (r :: rs)).data, ?_⟩
        rw [hJ]
        simp [data_append]
      · obtain ⟨s, t, hst⟩ := ih hp
        refine ⟨(q ++ sep).data ++ s, t, ?_⟩
        rw [hJ]
        simp only [data_append, ← hst, List.append_assoc]

/-- Every listed value ends one of the numbered pieces. -/
theorem mem_enumPieces_of_mem (l : List String) (v : String) (hv : v ∈ l) :
    ∀ i : Nat, ∃ p ∈ enumPieces i l, v.data <:+ p.data := by
  induction l with
  | nil => cases hv
  | cons x xs ih =>
    intro i
    rcases List.mem_cons.mp hv with hv | hv
    · subst hv
      refine ⟨"(" ++ toString (i + 1) ++ ") " ++ v, List.mem_cons_self _ _, ?_⟩
      exact ⟨("(" ++ toString (i + 1) ++ ") ").data, by simp [data_append]⟩
    · obtain ⟨p, hp, hs⟩ := ih hv (i + 1)
      exact ⟨p, List.mem_cons_of_mem _ hp, hs⟩

/-- Every value of the deduplicated list occurs inside its rendering. -/
theorem renderEnum_contains (l : List String) (v : String) (hv : v ∈ l) :
    v.data <:+: (renderEnum l).data := by
  unfold renderEnum
  by_cases h1 : l.length = 1
  · rw [if_pos h1]
    rcases l with _ | ⟨x, xs⟩
    · simp at h1
    · rcases xs with _ | ⟨y, ys⟩
      · simp at hv
        subst hv
        exact ⟨"(1) ".data, [], by simp [data_append]⟩
      · simp at h1
  · rw [if_neg h1]
    obtain ⟨p, hp, hs⟩ := mem_enumPieces_of_mem l v hv 0
    obtain ⟨pre, hpre⟩ := hs
    obtain ⟨s, t, hst⟩ := mem_joinSep_contains ", " _ p hp
    refine ⟨s ++ pre, t, ?_⟩
    rw [← hst, ← hpre]
    simp [List.append_assoc]

/-- C6: for every consolidation group key present in the input, the
consolidated listing carries an entry for it whose count is the number of
distinct date strings of the group (never of the locations), whose dates
and locations render the two value lists deduplicated independently in
first-occurrence order, and which therefore loses no distinct date or
location value of the group. -/
theorem save_to_lqk_consolidated_groups (cars : List Car) (k : String × String)
    (hk : k ∈ cars.map consKey) :
    ∃ e, e ∈ save_to_lqk_consolidated cars ∧
      e.car = k.1 ∧ e.year = k.2 ∧
      e.count = toString
        ((consGroupOf cars k).map (fun c => c.available)).toFinset.card ∧
      e.dates = renderEnum
        (dedupFirstSpec ((consGroupOf cars k).map (fun c => c.available))) ∧
      e.locations = renderEnum
        (dedupFirstSpec ((consGroupOf cars k).map (fun c => c.location))) ∧
      (∀ d ∈ (consGroupOf cars k).map (fun c => c.available),
        d.data <:+: e.dates.data) ∧
      (∀ v ∈ (consGroupOf cars k).map (fun c => c.location),
        v.data <:+: e.locations.data) := by
  have hmemk : k ∈ (consGroups cars).map (fun g => g.1) :=
    mem_keys_consGroups cars k hk
  obtain ⟨g, hg, hgk, hlook⟩ := consFind_of_mem _ k hmemk
  have hpay : g.2 = ((consGroupOf cars k).map (fun c => c.available),
      (consGroupOf cars k).map (fun c => c.location)) := by
    rw [← hlook, consGroups_lookup]
  have hdates : g.2.1 = (consGroupOf cars k).map (fun c => c.available) := by
    rw [hpay]
  have hlocs : g.2.2 = (consGroupOf cars k).map (fun c => c.location) := by
    rw [hpay]
  refine ⟨mkEntry g, ?_, ?_, ?_, ?_, ?_, ?_, ?_, ?_⟩
  · rw [save_to_lqk_consolidated]
    rw [sortEntries_mem]
    exact List.mem_map.mpr ⟨g, sortConsItems_mem.mpr hg, rfl⟩
  · rw [mkEntry, hgk]
  · rw [mkEntry, hgk]
  · rw [mkEntry]
    dsimp only
    rw [hdates, uniqueFirst_length_toFinset]
  · rw [mkEntry]
    dsimp only
    rw [hdates, uniqueFirst_eq]
  · rw [mkEntry]
    dsimp only
    rw [hlocs, uniqueFirst_eq]
  · intro d hd
    rw [mkEntry]
    dsimp only
    rw [hdates, uniqueFirst_eq]
    exact renderEnum_contains _ d (dedupFirstSpec_mem.mpr hd)
  · intro v hv
    rw [mkEntry]
    dsimp only
    rw [hlocs, uniqueFirst_eq]
    exact renderEnum_contains _ v (dedupFirstSpec_mem.mpr hv)

/-- C6 witness: the theorem applied to the spec's example — two records of
one group sharing a date but not a location: count is 1, both locations
are rendered. -/
theorem save_to_lqk_consolidated_groups_witness :
    ∃ e, e ∈ save_to_lqk_consolidated
        [{ year := "2020", make := "Honda", model := "Civic",
           location := "L1", available := "1/1/2020" },
         { year := "2020", make := "Honda", model := "Civic",
           location := "L2", available := "1/1/2020" }] ∧
      e.car = "Honda Civic" ∧ e.year = "2020" ∧
      e.count = toString
        ((consGroupOf
          [{ year := "2020", make := "Honda", model := "Civic",
             location := "L1", available := "1/1/2020" },
           { year := "2020", make := "Honda", model := "Civic",
             location := "L2", available := "1/1/2020" }]
          ("Honda Civic", "2020")).map (fun c => c.available)).toFinset.card ∧
      e.dates = renderEnum
        (dedupFirstSpec ((consGroupOf
          [{ year := "2020", make := "Honda", model := "Civic",
             location := "L1", available := "1/1/2020" },
           { year := "2020", make := "Honda", model := "Civic",
             location := "L2", available := "1/1/2020" }]
          ("Honda Civic", "2020")).map (fun c => c.available))) ∧
      e.locations = renderEnum
        (dedupFirstSpec ((consGroupOf
          [{ year := "2020", make := "Honda", model := "Civic",
             location := "L1", available := "1/1/2020" },
           { year := "2020", make := "Honda", model := "Civic",
             location := "L2", available := "1/1/2020" }]
          ("Honda Civic", "2020")).map (fun c => c.location))) ∧
      (∀ d ∈ (consGroupOf
          [{ year := "2020", make := "Honda", model := "Civic",
             location := "L1", available := "1/1/2020" },
           { year := "2020", make := "Honda", model := "Civic",
             location := "L2", available := "1/1/2020" }]
          ("Honda Civic", "2020")).map (fun c => c.available),
        d.data <:+: e.dates.data) ∧
      (∀ v ∈ (consGroupOf
          [{ year := "2020", make := "Honda", model := "Civic",
             location := "L1", available := "1/1/2020" },
           { year := "2020", make := "Honda", model := "Civic",
             location := "L2", available := "1/1/2020" }]
          ("Honda Civic", "2020")).map (fun c => c.location),
        v.data <:+: e.locations.data) :=
  save_to_lqk_consolidated_groups
    [{ year := "2020", make := "Honda", model := "Civic",
       location := "L1", available := "1/1/2020" },
     { year := "2020", make := "Honda", model := "Civic",
       location := "L2", available := "1/1/2020" }]
    ("Honda Civic", "2020") (by decide)

/-! ## C8: no data is fatal -/

/-- C8: when both sources yield zero records the run produces no outputs
and finishes with the non-zero exit status 1 (after reporting). -/
theorem mainModel_no_data (txt : List Car) (csvs : List (List Car))
    (h1 : txt = []) (h2 : csvs.join = []) :
    mainModel txt csvs = Except.ok (1, none) := by
  unfold mainModel
  rw [h1, h2]
  rfl

/-- C8 witness: an absent report source and one empty tabular source. -/
theorem mainModel_no_data_witness : mainModel [] [[]] = Except.ok (1, none) :=
  mainModel_no_data [] [[]] rfl rfl

/-- C10 witness: a three-line input with one start line whose block has no
Section/Available line: the extractor output equals the block semantics,
and the block's record has empty location and available fields. -/
theorem parse_lqk_blocks_witness :
    parse_lqk_file ["x", "2015 TOYOTA CAMRY available for parts", "junk"] =
      (blocksOf ["x", "2015 TOYOTA CAMRY available for parts", "junk"]).map
        applyBlock ∧
    (applyBlock (("2015", "TOYOTA", "CAMRY"),
        ["2015 TOYOTA CAMRY available for parts", "junk"])).location = "" ∧
    (applyBlock (("2015", "TOYOTA", "CAMRY"),
        ["2015 TOYOTA CAMRY available for parts", "junk"])).available = "" :=
  ⟨(parse_lqk_blocks ["x", "2015 TOYOTA CAMRY available for parts", "junk"]).1,
   (parse_lqk_blocks ["x", "2015 TOYOTA CAMRY available for parts", "junk"]).2
     (("2015", "TOYOTA", "CAMRY"),
       ["2015 TOYOTA CAMRY available for parts", "junk"])
     (by decide) (by decide)⟩

end LQK
